import Mathlib

/-!
# Distributed key-value store node

A shallow embedding of `projects/2. Distributed-KV-Store` (`node/node.go`,
`store/store.go`, `config/config.go`).

* The values a record holds are Go `any` values as `encoding/json` produces them.
* A Go slice is `Option (List α)`: `none` is the nil slice.
* The answers of the network (a ping, a hash fetch, a POST) are inputs of the
  functions that make the call.
* The handlers run one at a time, and a probe cycle runs as a whole: the
  interleavings of the Go scheduler inside a handler or a cycle are not modelled.
* Lines written with `log.Printf` are kept as events; what `fmt.Println` prints
  and the response headers are left out.
-/

namespace KVStore

/-! ## Go values -/

/-- Characters of a JSON number as `encoding/json` writes a float64. -/
def numChar (c : Char) : Bool :=
  c.isDigit || c == '-' || c == '+' || c == '.' || c == 'e'

/-- A text is a number token: it starts with a digit or a minus sign and holds
number characters only. -/
def isNumberText : List Char → Bool
  | [] => false
  | c :: cs => (c.isDigit || c == '-') && cs.all numChar

/-- A finite float64, stood for by the text `encoding/json` writes for it (the
shortest decimal text that reads back as the same float64, so that two float64
values are equal exactly when their texts are). -/
structure Float64 where
  text : String
  valid : isNumberText text.data = true

mutual
/-- Go `any` as `encoding/json` decodes into it: nil, bool, float64, string,
`[]any` and `map[string]any`. -/
inductive GoAny
  | null
  | bool (b : Bool)
  | float64 (f : Float64)
  | str (s : String)
  | slice (l : GoList)
  | map (m : GoFields)
/-- The elements of a `[]any`. -/
inductive GoList
  | nil
  | cons (a : GoAny) (l : GoList)
/-- The entries of a `map[string]any`, listed in the key order in which
`json.Marshal` writes them. -/
inductive GoFields
  | nil
  | cons (k : String) (v : GoAny) (m : GoFields)
end

/-- Go slice: `none` is the nil slice, `some l` a slice holding `l`. -/
abbrev Slice (α : Type) := Option (List α)

/-- The elements a slice ranges over. -/
def Slice.elems {α : Type} : Slice α → List α
  | none => []
  | some l => l

/-- Go `append(s, x)`: never nil. -/
def Slice.append {α : Type} (s : Slice α) (x : α) : Slice α :=
  some (s.elems ++ [x])

/-- Go map from string to bool, as the list of its entries (keys are unique). -/
abbrev GoMap := List (String × Bool)

/-- Go `m[k]`: the zero value `false` when the key is absent. -/
def GoMap.get (m : GoMap) (k : String) : Bool :=
  match m.find? (fun e => e.1 == k) with
  | some e => e.2
  | none => false

/-- Go `m[k] = v`. -/
def GoMap.set (m : GoMap) (k : String) (v : Bool) : GoMap :=
  if m.any (fun e => e.1 == k) then m.map (fun e => if e.1 == k then (k, v) else e)
  else m ++ [(k, v)]

/-- The keys of a Go map. -/
def GoMap.keys (m : GoMap) : List String := m.map Prod.fst

/-! ## package store -/

/-- `store.Store`: one key-value pair. -/
structure Store where
  Key : GoAny
  Value : GoAny

/-- `store.LocalDB`. -/
structure LocalDB where
  Store : Slice Store

/-! ## package config -/

/-- `config.Config`. -/
structure Config where
  Port : String
  Peers : List String
  PingFrequency : Int
  Timeout : Int

/-! ## encoding/json: Marshal -/

/-- Lower-case hexadecimal digit. -/
def hexDigit (n : Nat) : Char := Char.ofNat (if n < 10 then 48 + n else 87 + n)

/-- How `json.Marshal` writes one character of a string (HTML escaping on;
`\b` and `\f` written short, as Go does since 1.22). -/
def escapeChar (c : Char) : List Char :=
  if c = '"' then ['\\', '"']
  else if c = '\\' then ['\\', '\\']
  else if c.toNat = 8 then ['\\', 'b']
  else if c.toNat = 12 then ['\\', 'f']
  else if c.toNat = 10 then ['\\', 'n']
  else if c.toNat = 13 then ['\\', 'r']
  else if c.toNat = 9 then ['\\', 't']
  else if c.toNat < 32 ∨ c = '<' ∨ c = '>' ∨ c = '&' then
    ['\\', 'u', '0', '0', hexDigit (c.toNat / 16), hexDigit (c.toNat % 16)]
  else if c.toNat = 8232 then ['\\', 'u', '2', '0', '2', '8']
  else if c.toNat = 8233 then ['\\', 'u', '2', '0', '2', '9']
  else [c]

/-- The escaped characters of a string, without the quotes. -/
def escapeChars : List Char → List Char
  | [] => []
  | c :: cs => escapeChar c ++ escapeChars cs

/-- A JSON string literal. -/
def quote (s : String) : List Char := '"' :: (escapeChars s.data ++ ['"'])

mutual
/-- The text `json.Marshal` writes for an `any` value. -/
def marshalAny : GoAny → List Char
  | .null => ['n', 'u', 'l', 'l']
  | .bool b => if b then ['t', 'r', 'u', 'e'] else ['f', 'a', 'l', 's', 'e']
  | .float64 f => f.text.data
  | .str s => quote s
  | .slice l => '[' :: marshalList l
  | .map m => '{' :: marshalFields m
/-- Array elements after the opening bracket, closing bracket included. -/
def marshalList : GoList → List Char
  | .nil => [']']
  | .cons a l => marshalAny a ++ marshalListRest l
/-- Array elements after the first one. -/
def marshalListRest : GoList → List Char
  | .nil => [']']
  | .cons a l => ',' :: (marshalAny a ++ marshalListRest l)
/-- Object entries after the opening brace, closing brace included. -/
def marshalFields : GoFields → List Char
  | .nil => ['}']
  | .cons k v m => quote k ++ ':' :: (marshalAny v ++ marshalFieldsRest m)
/-- Object entries after the first one. -/
def marshalFieldsRest : GoFields → List Char
  | .nil => ['}']
  | .cons k v m => ',' :: (quote k ++ ':' :: (marshalAny v ++ marshalFieldsRest m))
end

/-- The text `json.Marshal` writes for a `store.Store` (no field tags). -/
def marshalStore (r : Store) : List Char :=
  ['{', '"', 'K', 'e', 'y', '"', ':'] ++ (marshalAny r.Key ++
    ([',', '"', 'V', 'a', 'l', 'u', 'e', '"', ':'] ++ (marshalAny r.Value ++ ['}'])))

/-- Records after the first one, closing bracket included. -/
def marshalStoresRest : List Store → List Char
  | [] => [']']
  | r :: rs => ',' :: (marshalStore r ++ marshalStoresRest rs)

/-- Records after the opening bracket, closing bracket included. -/
def marshalStores : List Store → List Char
  | [] => [']']
  | r :: rs => marshalStore r ++ marshalStoresRest rs

/-- The text of `json.Marshal(n.DB.Store)`: a nil slice is written `null`. -/
def jsonMarshal : Slice Store → List Char
  | none => ['n', 'u', 'l', 'l']
  | some l => '[' :: marshalStores l

/-- UTF-8 bytes of one character. -/
def utf8Char (c : Char) : List Nat :=
  let v := c.toNat
  if v < 128 then [v]
  else if v < 2048 then [192 + v / 64, 128 + v % 64]
  else if v < 65536 then [224 + v / 4096, 128 + v / 64 % 64, 128 + v % 64]
  else [240 + v / 262144, 128 + v / 4096 % 64, 128 + v / 64 % 64, 128 + v % 64]

/-- UTF-8 bytes of a text. -/
def utf8 : List Char → List Nat
  | [] => []
  | c :: cs => utf8Char c ++ utf8 cs

/-! ## crypto/sha256 -/

/-- Addition of 32-bit words. -/
def add32 (a b : Nat) : Nat := (a + b) % 4294967296

/-- Right rotation of a 32-bit word. -/
def rotr (x n : Nat) : Nat := ((x >>> n) ||| (x <<< (32 - n))) % 4294967296

/-- The round constants of SHA-256. -/
def sha256K : List Nat := [
  1116352408, 1899447441, 3049323471, 3921009573, 961987163, 1508970993,
  2453635748, 2870763221, 3624381080, 310598401, 607225278, 1426881987,
  1925078388, 2162078206, 2614888103, 3248222580, 3835390401, 4022224774,
  264347078, 604807628, 770255983, 1249150122, 1555081692, 1996064986,
  2554220882, 2821834349, 2952996808, 3210313671, 3336571891, 3584528711,
  113926993, 338241895, 666307205, 773529912, 1294757372, 1396182291,
  1695183700, 1986661051, 2177026350, 2456956037, 2730485921, 2820302411,
  3259730800, 3345764771, 3516065817, 3600352804, 4094571909, 275423344,
  430227734, 506948616, 659060556, 883997877, 958139571, 1322822218,
  1537002063, 1747873779, 1955562222, 2024104815, 2227730452, 2361852424,
  2428436474, 2756734187, 3204031479, 3329325298]

/-- The initial hash value of SHA-256. -/
def sha256Init : List Nat :=
  [1779033703, 3144134277, 1013904242, 2773480762, 1359893119, 2600822924, 528734635,
    1541459225]

/-- The low `k` bytes of `n`, most significant first. -/
def beBytes : Nat → Nat → List Nat
  | 0, _ => []
  | k + 1, n => (n >>> (8 * k)) % 256 :: beBytes k n

/-- The padded message: a one bit, zeros, and the bit length in 64 bits. -/
def sha256Pad (msg : List Nat) : List Nat :=
  msg ++ 128 :: (List.replicate ((119 - msg.length % 64) % 64) 0 ++ beBytes 8 (8 * msg.length))

/-- The 32-bit word of the first four bytes. -/
def beWord : List Nat → Nat
  | a :: b :: c :: d :: _ => ((a * 256 + b) * 256 + c) * 256 + d
  | _ => 0

/-- The first `k` 32-bit words of a byte sequence. -/
def beWords : Nat → List Nat → List Nat
  | 0, _ => []
  | k + 1, bs => beWord bs :: beWords k (bs.drop 4)

/-- Word `i` of the message schedule, appended to the words before it. -/
def sha256Extend (w : List Nat) (i : Nat) : List Nat :=
  let w15 := w.getD (i - 15) 0
  let w2 := w.getD (i - 2) 0
  let s0 := rotr w15 7 ^^^ rotr w15 18 ^^^ (w15 >>> 3)
  let s1 := rotr w2 17 ^^^ rotr w2 19 ^^^ (w2 >>> 10)
  w ++ [add32 (add32 (w.getD (i - 16) 0) s0) (add32 (w.getD (i - 7) 0) s1)]

/-- The 64 words of the message schedule of a block. -/
def sha256Schedule (block : List Nat) : List Nat :=
  (List.range' 16 48).foldl sha256Extend (beWords 16 block)

/-- One round on the eight working variables, with constant `kw.1` and schedule
word `kw.2`. -/
def sha256Round (s : List Nat) (kw : Nat × Nat) : List Nat :=
  match s with
  | [a, b, c, d, e, f, g, h] =>
    let s1 := rotr e 6 ^^^ rotr e 11 ^^^ rotr e 25
    let ch := (e &&& f) ^^^ ((4294967295 - e) &&& g)
    let t1 := add32 (add32 (add32 h s1) (add32 ch kw.1)) kw.2
    let s0 := rotr a 2 ^^^ rotr a 13 ^^^ rotr a 22
    let maj := (a &&& b) ^^^ (a &&& c) ^^^ (b &&& c)
    let t2 := add32 s0 maj
    [add32 t1 t2, a, b, c, add32 d t1, e, f, g]
  | _ => s

/-- The hash value after one more block. -/
def sha256Block (h : List Nat) (block : List Nat) : List Nat :=
  List.zipWith add32 h ((sha256K.zip (sha256Schedule block)).foldl sha256Round h)

/-- The hash value after `k` more blocks of 64 bytes. -/
def sha256Blocks : Nat → List Nat → List Nat → List Nat
  | 0, h, _ => h
  | k + 1, h, bs => sha256Blocks k (sha256Block h (bs.take 64)) (bs.drop 64)

/-- The bytes of a list of 32-bit words. -/
def wordsBytes : List Nat → List Nat
  | [] => []
  | w :: ws => beBytes 4 w ++ wordsBytes ws

/-- SHA-256 of a byte sequence: the 32 bytes `hash.Sum(nil)` returns. -/
def sha256 (msg : List Nat) : List Nat :=
  wordsBytes (sha256Blocks ((sha256Pad msg).length / 64) sha256Init (sha256Pad msg))

/-- The two hexadecimal digits of each byte, as `fmt.Sprintf("%x", b)` writes them. -/
def hexBytes : List Nat → List Char
  | [] => []
  | b :: bs => hexDigit (b / 16) :: hexDigit (b % 16) :: hexBytes bs

/-! ## package node -/

/-- `node.Node`. -/
structure Node where
  Port : String
  Peers : List String
  PeerStates : GoMap
  DB : LocalDB
  PingFrequency : Int
  Timeout : Int

/-- The loop of `NewNode` that marks every peer as down. -/
def initPeerStates : List String → GoMap → GoMap
  | [], m => m
  | peer :: rest, m => initPeerStates rest (m.set peer false)

/-- `NewNode`: every peer down, the store empty (a nil slice). -/
def NewNode (cfg : Config) : Node :=
  { Port := cfg.Port
    Peers := cfg.Peers
    PeerStates := initPeerStates cfg.Peers []
    DB := { Store := none }
    PingFrequency := cfg.PingFrequency
    Timeout := cfg.Timeout }

/-- `Node.computeHash`: the hexadecimal SHA-256 of the marshalled store.
`json.Marshal` returns no error on the values a store can hold, so the error
result of the source is never produced. -/
def Node.computeHash (n : Node) : String :=
  String.mk (hexBytes (sha256 (utf8 (jsonMarshal n.DB.Store))))

/-! ### HTTP -/

/-- An inbound request as a handler reads it: the method, and what
`json.NewDecoder(r.Body).Decode` gives for the target of the handler
(`none` when it returns an error). -/
structure Request (α : Type) where
  Method : String
  Body : Option α

/-- The response a handler leaves: status code and body. -/
structure Response where
  Status : Nat
  Body : String
deriving DecidableEq, Repr

/-- `http.Error(w, msg, code)`. -/
def httpError (msg : String) (code : Nat) : Response :=
  { Status := code, Body := msg ++ "\n" }

/-- The outcome of an outbound `http.Post` or of `client.Get`: a transport
error, or the status code of the response. -/
inductive CallResult
  | err
  | status (code : Nat)
deriving DecidableEq, Repr

/-- The outcome of `getPeerStoreHash`: an error (transport, or a body that does
not decode), or the `hash` field of the decoded body. -/
inductive HashResult
  | err
  | hash (h : String)
deriving DecidableEq, Repr

/-- What a node does that is seen from outside: outbound requests and log lines. -/
inductive Event
  | get (peer : String) (path : String)
  | post (peer : String) (path : String) (body : String)
  | logPeerDown (peer : String)
  | logPeerUp (peer : String)
  | logPeerStatus (peer : String) (code : Nat)
  | logAllPeersUp
  | logHashFetchFailed (peer : String)
  | logHashMismatch (localHash : String) (peer : String) (peerHash : String)
  | logHashMatch (peer : String)
  | logReplicateStoreFailed (peer : String)
  | logReplicatedStore (peer : String)
  | logReplicateFailed (peer : String)
  | logPeerStoreFailed (peer : String) (code : Nat)
  | logPeerStored (peer : String)
deriving DecidableEq, Repr

/-! ### Inbound handlers -/

/-- `Node.Pong`. -/
def Node.Pong (n : Node) (r : Request Unit) : Node × Response :=
  if r.Method ≠ "GET" then (n, httpError "Method not allowed" 405)
  else (n, { Status := 200, Body := "\x7b\"message\": \"pong\"\x7d" })

/-- The target `StoreKeyValue` decodes the body into. -/
structure KeyValue where
  Key : String
  Value : String

/-- The text of `json.Marshal(keyValue)` in `StoreKeyValue` (fields tagged `key`
and `value`). -/
def marshalKeyValue (kv : KeyValue) : List Char :=
  ['{', '"', 'k', 'e', 'y', '"', ':'] ++ (quote kv.Key ++
    ([',', '"', 'v', 'a', 'l', 'u', 'e', '"', ':'] ++ (quote kv.Value ++ ['}'])))

/-- The replication loop of `StoreKeyValue`: one POST to `/replicate` per peer,
whose outcome `env i` is only logged. `json.Marshal(keyValue)` cannot fail on two
strings. -/
def replicateToPeers (body : String) (env : Nat → CallResult) : Nat → List String → List Event
  | _, [] => []
  | i, peer :: rest =>
    (Event.post peer "/replicate" body ::
      (match env i with
        | .err => [Event.logReplicateFailed peer]
        | .status code =>
          if code ≠ 200 then [Event.logPeerStoreFailed peer code] else [Event.logPeerStored peer]))
      ++ replicateToPeers body env (i + 1) rest

/-- `Node.StoreKeyValue`. The handler writes no status and no body on the path
that stores: `net/http` then answers 200 with an empty body. -/
def Node.StoreKeyValue (n : Node) (r : Request KeyValue) (env : Nat → CallResult) :
    Node × Response × List Event :=
  if r.Method ≠ "POST" then (n, httpError "Method not allowed" 405, [])
  else
    match r.Body with
    | none => (n, httpError "Invalid request body" 400, [])
    | some keyValue =>
      let newStore : Store := { Key := .str keyValue.Key, Value := .str keyValue.Value }
      ({ n with DB := { Store := n.DB.Store.append newStore } },
        { Status := 200, Body := "" },
        replicateToPeers (String.mk (marshalKeyValue keyValue)) env 0 n.Peers)

/-- `Node.ReplicateKeyValue`. -/
def Node.ReplicateKeyValue (n : Node) (r : Request Store) : Node × Response :=
  if r.Method ≠ "POST" then (n, httpError "Method not allowed" 405)
  else
    match r.Body with
    | none => (n, httpError "Invalid request body" 400)
    | some keyValue =>
      ({ n with DB := { Store := n.DB.Store.append keyValue } },
        { Status := 200, Body := "\x7b\"message\": \"Key-value pair replicated successfully\"\x7d" })

/-- `Node.StoreHash`: no check of the method, no body read. The branch for an
error of `computeHash` is never taken. -/
def Node.StoreHash (n : Node) (_r : Request Unit) : Node × Response :=
  (n, { Status := 200, Body := "\x7b\"hash\": \"" ++ n.computeHash ++ "\"\x7d" })

/-- `Node.AcceptReplicateAll`. -/
def Node.AcceptReplicateAll (n : Node) (r : Request (Slice Store)) : Node × Response :=
  if r.Method ≠ "POST" then (n, httpError "Method not allowed" 405)
  else
    match r.Body with
    | none => (n, httpError "Invalid request body" 400)
    | some storeData =>
      ({ n with DB := { Store := storeData } },
        { Status := 200,
          Body := "\x7b\"message\": \"All key-value pairs replicated successfully\"\x7d" })

/-- The target `GetValue` decodes the body into. -/
structure KeyQuery where
  Key : String

/-- Go `storeItem.Key == keyValue.Key` between an `any` and a string: true when
the `any` holds a string, and the same one. -/
def keyEq : GoAny → String → Bool
  | .str s, k => s == k
  | _, _ => false

/-- The response of `GetValue` that carries a value: the encoder writes the
object and a newline. -/
def valueResponse (v : GoAny) : Response :=
  { Status := 200
    Body := String.mk (['{', '"', 'v', 'a', 'l', 'u', 'e', '"', ':'] ++
      (marshalAny v ++ ['}', Char.ofNat 10])) }

/-- The search loop of `GetValue` over the records in append order. -/
def scanStore (key : String) : List Store → Response
  | [] => httpError "Key not found" 404
  | storeItem :: rest =>
    if keyEq storeItem.Key key then valueResponse storeItem.Value else scanStore key rest

/-- `Node.GetValue`. -/
def Node.GetValue (n : Node) (r : Request KeyQuery) : Node × Response :=
  if r.Method ≠ "GET" then (n, httpError "Method not allowed" 405)
  else
    match r.Body with
    | none => (n, httpError "Invalid request body" 400)
    | some keyValue => (n, scanStore keyValue.Key n.DB.Store.elems)

/-! ### The probe loop -/

/-- What the network answers for one peer in one cycle: to the ping, to the hash
fetch, to the whole-store POST (the last two are read only when the call is made). -/
structure PeerEnv where
  ping : CallResult
  hash : HashResult
  push : CallResult

/-- `Node.getPeerStoreHash`: one GET to `/store/hash`. -/
def Node.getPeerStoreHash (_n : Node) (peer : String) (res : HashResult) :
    HashResult × List Event :=
  (res, [Event.get peer "/store/hash"])

/-- `Node.replicateStoreToPeer`: one POST of the marshalled store to
`/replicateAll`; `true` when the source returns a nil error. -/
def Node.replicateStoreToPeer (n : Node) (peer : String) (res : CallResult) :
    Bool × List Event :=
  let call := Event.post peer "/replicateAll" (String.mk (jsonMarshal n.DB.Store))
  match res with
  | .err => (false, [call])
  | .status code =>
    if code ≠ 200 then (false, [call]) else (true, [call, Event.logReplicatedStore peer])

/-- The variables of `PingPeers` that live across cycles. -/
structure PingVars where
  alreadyLoggedAllUp : Bool
  peerLoggedUp : GoMap

/-- The state of one cycle of `PingPeers` between two peers. -/
structure Probe where
  node : Node
  peerLoggedUp : GoMap
  allUp : Bool

/-- The body of `for _, peer := range n.Peers` in `PingPeers`, for one peer.
Closing the response body can only add a log line and is left out. -/
def Node.pingPeer (st : Probe) (peer : String) (e : PeerEnv) : Probe × List Event :=
  match e.ping with
  | .err =>
    ({ node := { st.node with PeerStates := st.node.PeerStates.set peer false }
       peerLoggedUp := st.peerLoggedUp.set peer false
       allUp := false },
      [Event.get peer "/ping", Event.logPeerDown peer])
  | .status code =>
    if code = 200 then
      let node : Node := { st.node with PeerStates := st.node.PeerStates.set peer true }
      if !st.peerLoggedUp.get peer then
        let st1 : Probe :=
          { node := node, peerLoggedUp := st.peerLoggedUp.set peer true, allUp := st.allUp }
        let localstoreHash := node.computeHash
        let fetched := node.getPeerStoreHash peer e.hash
        match fetched.1 with
        | .err =>
          (st1, [Event.get peer "/ping", Event.logPeerUp peer] ++ fetched.2 ++
            [Event.logHashFetchFailed peer])
        | .hash peerStoreHash =>
          if localstoreHash ≠ peerStoreHash then
            let pushed := node.replicateStoreToPeer peer e.push
            (st1, [Event.get peer "/ping", Event.logPeerUp peer] ++ fetched.2 ++
              [Event.logHashMismatch localstoreHash peer peerStoreHash] ++ pushed.2 ++
              (if pushed.1 then [] else [Event.logReplicateStoreFailed peer]))
          else
            (st1, [Event.get peer "/ping", Event.logPeerUp peer] ++ fetched.2 ++
              [Event.logHashMatch peer])
      else
        ({ node := node, peerLoggedUp := st.peerLoggedUp, allUp := st.allUp },
          [Event.get peer "/ping"])
    else
      ({ node := st.node, peerLoggedUp := st.peerLoggedUp, allUp := false },
        [Event.get peer "/ping", Event.logPeerStatus peer code])

/-- The loop `for _, peer := range n.Peers` from peer number `i` on; `env i` is
what the network answers for peer number `i`. -/
def Node.pingLoop (env : Nat → PeerEnv) : Nat → List String → Probe → Probe × List Event
  | _, [], st => (st, [])
  | i, peer :: rest, st =>
    let one := Node.pingPeer st peer (env i)
    let more := Node.pingLoop env (i + 1) rest one.1
    (more.1, one.2 ++ more.2)

/-- One cycle of `PingPeers` (the body of `for range ticker.C`). -/
def Node.pingCycle (n : Node) (v : PingVars) (env : Nat → PeerEnv) :
    Node × PingVars × List Event :=
  let r := Node.pingLoop env 0 n.Peers
    { node := n, peerLoggedUp := v.peerLoggedUp, allUp := true }
  let fire := r.1.allUp && !v.alreadyLoggedAllUp
  let logged := if fire then true else v.alreadyLoggedAllUp
  (r.1.node,
    { alreadyLoggedAllUp := if !r.1.allUp then false else logged
      peerLoggedUp := r.1.peerLoggedUp },
    r.2 ++ (if fire then [Event.logAllPeersUp] else []))

/-- The variables of `PingPeers` before the first cycle. -/
def PingVars.init : PingVars := { alreadyLoggedAllUp := false, peerLoggedUp := [] }

/-- `Node.PingPeers` over the cycles of a finite run, one network answer per
cycle: the node and loop variables after the last cycle, and the events of each
cycle. -/
def Node.PingPeers (n : Node) (cycles : List (Nat → PeerEnv)) :
    Node × PingVars × List (List Event) :=
  cycles.foldl
    (fun acc env =>
      let r := Node.pingCycle acc.1 acc.2.1 env
      (r.1, r.2.1, acc.2.2 ++ [r.2.2]))
    (n, PingVars.init, [])

/-! ### The running node -/

/-- A running node: its fields and the variables of its probe loop. -/
structure System where
  node : Node
  vars : PingVars

/-- `Node.Start` on the node `NewNode` returns: the handlers are registered and
the probe loop begins. -/
def System.start (cfg : Config) : System :=
  { node := NewNode cfg, vars := PingVars.init }

/-- What happens to a running node: a probe cycle, or an inbound request. -/
inductive Action
  | cycle (env : Nat → PeerEnv)
  | storeKeyValue (r : Request KeyValue) (env : Nat → CallResult)
  | replicateKeyValue (r : Request Store)
  | acceptReplicateAll (r : Request (Slice Store))
  | getValue (r : Request KeyQuery)
  | storeHash (r : Request Unit)
  | pong (r : Request Unit)

/-- One action on a running node: the next state and the events. -/
def System.step (s : System) : Action → System × List Event
  | .cycle env =>
    let r := s.node.pingCycle s.vars env
    ({ node := r.1, vars := r.2.1 }, r.2.2)
  | .storeKeyValue r env =>
    let res := s.node.StoreKeyValue r env
    ({ s with node := res.1 }, res.2.2)
  | .replicateKeyValue r => ({ s with node := (s.node.ReplicateKeyValue r).1 }, [])
  | .acceptReplicateAll r => ({ s with node := (s.node.AcceptReplicateAll r).1 }, [])
  | .getValue r => ({ s with node := (s.node.GetValue r).1 }, [])
  | .storeHash r => ({ s with node := (s.node.StoreHash r).1 }, [])
  | .pong r => ({ s with node := (s.node.Pong r).1 }, [])

/-- A finite run: the state after the actions, and the events of each action. -/
def System.run : System → List Action → System × List (List Event)
  | s, [] => (s, [])
  | s, a :: rest =>
    let one := s.step a
    let more := System.run one.1 rest
    (more.1, one.2 :: more.2)

/-! ## Observations on events and example inputs -/

/-- The whole-store pushes to a peer among events: the POSTs to its `/replicateAll`. -/
def pushesTo (p : String) (evs : List Event) : List Event :=
  evs.filter fun e =>
    match e with
    | .post q path _ => q == p && path == "/replicateAll"
    | _ => false

/-- The synchronization attempts for a peer among events: the fetches of its
store hash, which open the hash comparison. -/
def syncsWith (p : String) (evs : List Event) : List Event :=
  evs.filter fun e =>
    match e with
    | .get q path => q == p && path == "/store/hash"
    | _ => false

/-- A configuration with one peer. -/
def exampleConfig : Config :=
  { Port := "8000", Peers := ["http://localhost:8001"], PingFrequency := 15, Timeout := 20 }

/-- A network in which every peer answers the ping with the given status, the
hash fetch fails and the push fails. -/
def pingStatus (code : Nat) : Nat → PeerEnv :=
  fun _ => { ping := .status code, hash := .err, push := .err }

/-! ## The per-peer state machine, in the words of the specification -/

/-- The one-shot flag of a peer after one more probe: a request error clears
it, an OK response sets it, another status leaves it as it is. -/
def flagAfter (logged : Bool) : CallResult → Bool
  | .err => false
  | .status code => if code = 200 then true else logged

/-- A probe is a Down→Up transition: an OK response while the one-shot flag is
false. -/
def upTransition (logged : Bool) (r : CallResult) : Bool :=
  r == CallResult.status 200 && !logged

/-- The one-shot flag after a sequence of probes. -/
def flagAfterAll : Bool → List CallResult → Bool
  | logged, [] => logged
  | logged, r :: rs => flagAfterAll (flagAfter logged r) rs

/-- The number of Down→Up transitions in a sequence of probes. -/
def countUp : Bool → List CallResult → Nat
  | _, [] => 0
  | logged, r :: rs => (if upTransition logged r then 1 else 0) + countUp (flagAfter logged r) rs

/-- The ping outcomes of peer `p` in one cycle over the peers from number `i` on. -/
def pingsOf (p : String) (env : Nat → PeerEnv) : Nat → List String → List CallResult
  | _, [] => []
  | i, peer :: rest => (if peer = p then [(env i).ping] else []) ++ pingsOf p env (i + 1) rest

/-- The ping outcomes of peer `p` over a run, in order. -/
def pingsIn (p : String) (peers : List String) : List Action → List CallResult
  | [] => []
  | .cycle env :: rest => pingsOf p env 0 peers ++ pingsIn p peers rest
  | _ :: rest => pingsIn p peers rest

/-- The key set of the peer-state map is the peer set, without repetition. -/
def KeysAre (peers : List String) (m : GoMap) : Prop :=
  m.keys.Nodup ∧ ∀ k, k ∈ m.keys ↔ k ∈ peers

/-! ## Reading back what `json.Marshal` wrote -/

/-- The value of a lower-case hexadecimal digit. -/
def hexVal (c : Char) : Nat := if c.toNat < 58 then c.toNat - 48 else c.toNat - 87

/-- The character behind the four hexadecimal digits of a `\u` escape that
`escapeChar` writes. -/
def unescapeHex : List Char → Option (Char × List Char)
  | a :: _ :: c :: d :: rest =>
    if a = '2' then some (Char.ofNat (8224 + hexVal d), rest)
    else some (Char.ofNat (16 * hexVal c + hexVal d), rest)
  | _ => none

/-- The character behind an escape, read after its backslash. -/
def unescapeTail : List Char → Option (Char × List Char)
  | [] => none
  | t :: rest =>
    if t = '"' then some ('"', rest)
    else if t = '\\' then some ('\\', rest)
    else if t = 'b' then some (Char.ofNat 8, rest)
    else if t = 'f' then some (Char.ofNat 12, rest)
    else if t = 'n' then some (Char.ofNat 10, rest)
    else if t = 'r' then some (Char.ofNat 13, rest)
    else if t = 't' then some (Char.ofNat 9, rest)
    else if t = 'u' then unescapeHex rest
    else none

/-- The first character of an escaped text, and the text after it. -/
def unescape : List Char → Option (Char × List Char)
  | [] => none
  | c :: rest => if c = '\\' then unescapeTail rest else some (c, rest)

/-- A character with which the text of a value starts. -/
def startsValue (c : Char) : Bool :=
  c == 'n' || c == 't' || c == 'f' || c.isDigit || c == '-' || c == '"' || c == '[' || c == '{'

/-- A text that can follow a value: it is empty or starts with a character that
is not a number character. -/
def Delimited : List Char → Prop
  | [] => True
  | c :: _ => numChar c = false

/-! ## Stores for the digest -/

/-- A node like `NewNode exampleConfig` that holds the given store. -/
def nodeWith (s : Slice Store) : Node :=
  { NewNode exampleConfig with DB := { Store := s } }

/-! ## The cycles of a run -/

/-- Every peer answered the ping of the cycle with 200; the peers are numbered
from `i`, as `pingLoop` numbers them. -/
def allOkFrom (env : Nat → PeerEnv) : Nat → List String → Bool
  | _, [] => true
  | i, _ :: rest => ((env i).ping == CallResult.status 200) && allOkFrom env (i + 1) rest

/-- Every peer answered OK in the cycle. -/
def allOk (peers : List String) (env : Nat → PeerEnv) : Bool :=
  allOkFrom env 0 peers

/-- The network answers of the probe cycles of a run, in order. -/
def cyclesOf : List Action → List (Nat → PeerEnv)
  | [] => []
  | .cycle env :: rest => env :: cyclesOf rest
  | _ :: rest => cyclesOf rest

/-- The request a peer reads when a POST to `/replicateAll` arrives whose body
`json.Marshal` wrote: the method is POST, and `encoding/json` decodes the body
to a slice that marshals to that same body. -/
def Delivered (body : String) (r : Request (Slice Store)) : Prop :=
  r.Method = "POST" ∧ ∃ d : Slice Store, r.Body = some d ∧ String.mk (jsonMarshal d) = body

/-- The store of scenario A: the one record `k1`, `v1`. -/
def storeA : Slice Store :=
  some [{ Key := GoAny.str "k1", Value := GoAny.str "v1" }]

/-! ## Theorems -/

/-! ### Go maps -/

theorem GoMap.keys_set (m : GoMap) (k : String) (v : Bool) :
    (m.set k v).keys = if k ∈ m.keys then m.keys else m.keys ++ [k] := by
  unfold GoMap.set GoMap.keys
  by_cases h : k ∈ List.map Prod.fst m
  · have hany : (m.any fun e => e.1 == k) = true := by
      rcases List.mem_map.1 h with ⟨e, he, rfl⟩
      exact List.any_eq_true.2 ⟨e, he, by simp⟩
    simp only [hany, if_true, h]
    rw [List.map_map]
    apply List.map_congr_left
    intro e _
    by_cases hk : e.1 = k <;> simp [hk]
  · have hany : ¬ (m.any fun e => e.1 == k) = true := by
      intro hc
      rcases List.any_eq_true.1 hc with ⟨e, he, hek⟩
      exact h (List.mem_map.2 ⟨e, he, by simpa using hek⟩)
    simp [hany, h]

theorem GoMap.mem_keys_set (m : GoMap) (k : String) (v : Bool) (x : String) :
    x ∈ (m.set k v).keys ↔ x ∈ m.keys ∨ x = k := by
  rw [GoMap.keys_set]
  split
  · constructor
    · exact Or.inl
    · rintro (h | rfl)
      · exact h
      · assumption
  · simp

theorem GoMap.nodup_keys_set (m : GoMap) (k : String) (v : Bool) (h : m.keys.Nodup) :
    (m.set k v).keys.Nodup := by
  rw [GoMap.keys_set]
  split
  · exact h
  · rename_i hk
    exact List.Nodup.append h (List.nodup_singleton k) (by simpa using hk)

theorem GoMap.find_update_self (m : GoMap) (k : String) (v : Bool)
    (h : (m.any fun e => e.1 == k) = true) :
    (m.map fun e => if e.1 == k then (k, v) else e).find? (fun e => e.1 == k) = some (k, v) := by
  induction m with
  | nil => simp at h
  | cons e es ih =>
    simp only [List.map_cons, List.find?_cons]
    by_cases he : e.1 = k
    · have hb : (e.1 == k) = true := by simp [he]
      simp only [hb, if_true, beq_self_eq_true]
    · have hb : (e.1 == k) = false := by simp [he]
      have hes : (es.any fun e => e.1 == k) = true := by simpa [he] using h
      simp only [hb, Bool.false_eq_true, if_false]
      exact ih hes

theorem GoMap.find_update_ne (m : GoMap) (k p : String) (v : Bool) (h : k ≠ p) :
    (m.map fun e => if e.1 == k then (k, v) else e).find? (fun e => e.1 == p) =
      m.find? (fun e => e.1 == p) := by
  induction m with
  | nil => rfl
  | cons e es ih =>
    simp only [List.map_cons, List.find?_cons]
    have hkp : (k == p) = false := by simp [h]
    by_cases he : e.1 = k
    · have hb : (e.1 == k) = true := by simp [he]
      have hp : (e.1 == p) = false := by simp [he, h]
      simp only [hb, if_true, hkp, hp]
      exact ih
    · have hb : (e.1 == k) = false := by simp [he]
      simp only [hb, Bool.false_eq_true, if_false]
      cases hp : (e.1 == p)
      · exact ih
      · rfl

theorem GoMap.get_set_self (m : GoMap) (k : String) (v : Bool) : (m.set k v).get k = v := by
  unfold GoMap.set GoMap.get
  by_cases hany : (m.any fun e => e.1 == k) = true
  · rw [if_pos hany, GoMap.find_update_self m k v hany]
  · rw [if_neg hany]
    have hnone : m.find? (fun e => e.1 == k) = none := by
      rw [List.find?_eq_none]
      intro e he hek
      exact hany (List.any_eq_true.2 ⟨e, he, hek⟩)
    simp [List.find?_append, hnone]

theorem GoMap.get_set_ne (m : GoMap) (k p : String) (v : Bool) (h : k ≠ p) :
    (m.set k v).get p = m.get p := by
  unfold GoMap.set GoMap.get
  by_cases hany : (m.any fun e => e.1 == k) = true
  · rw [if_pos hany, GoMap.find_update_ne m k p v h]
  · rw [if_neg hany]
    cases hf : m.find? (fun e => e.1 == p) <;> simp [List.find?_append, hf, h]

/-! ### Handlers that write the store -/

/-- C2. `StoreKeyValue` on a POST request whose body decodes to `kv` leaves the
store equal to the old records with the record of `kv` appended at the end and
answers 200, and neither the resulting node nor the response depends on what
the peers answer. -/
theorem StoreKeyValue_appends (n : Node) (kv : KeyValue) (env : Nat → CallResult) :
    (n.StoreKeyValue { Method := "POST", Body := some kv } env).1.DB.Store =
        some (n.DB.Store.elems ++ [{ Key := GoAny.str kv.Key, Value := GoAny.str kv.Value }]) ∧
      (n.StoreKeyValue { Method := "POST", Body := some kv } env).2.1 =
        { Status := 200, Body := "" } ∧
      ∀ env2 : Nat → CallResult,
        (n.StoreKeyValue { Method := "POST", Body := some kv } env2).1 =
            (n.StoreKeyValue { Method := "POST", Body := some kv } env).1 ∧
          (n.StoreKeyValue { Method := "POST", Body := some kv } env2).2.1 =
            (n.StoreKeyValue { Method := "POST", Body := some kv } env).2.1 := by
  simp [Node.StoreKeyValue, Slice.append]

/-- C3. `AcceptReplicateAll` on a POST request whose body decodes to `X` makes
the store equal to `X`, whatever it held before, and applying it a second time
with the same `X` changes nothing: the store is still `X`. -/
theorem AcceptReplicateAll_replaces (n : Node) (X : Slice Store) :
    (n.AcceptReplicateAll { Method := "POST", Body := some X }).1.DB.Store = X ∧
      ((n.AcceptReplicateAll { Method := "POST", Body := some X }).1.AcceptReplicateAll
          { Method := "POST", Body := some X }).1 =
        (n.AcceptReplicateAll { Method := "POST", Body := some X }).1 ∧
      ((n.AcceptReplicateAll { Method := "POST", Body := some X }).1.AcceptReplicateAll
          { Method := "POST", Body := some X }).1.DB.Store = X := by
  simp [Node.AcceptReplicateAll]

/-- C8. `ReplicateKeyValue` on a POST request whose body decodes to the record
`r` leaves the store equal to the old records with `r` appended at the end and
answers 200, whatever the store held: every old record keeps its position. -/
theorem ReplicateKeyValue_appends (n : Node) (r : Store) :
    (n.ReplicateKeyValue { Method := "POST", Body := some r }).1.DB.Store =
        some (n.DB.Store.elems ++ [r]) ∧
      (n.ReplicateKeyValue { Method := "POST", Body := some r }).2.Status = 200 ∧
      ∀ i (h : i < n.DB.Store.elems.length),
        (n.ReplicateKeyValue { Method := "POST", Body := some r }).1.DB.Store.elems[i]? =
          some (n.DB.Store.elems.get ⟨i, h⟩) := by
  refine ⟨by simp [Node.ReplicateKeyValue, Slice.append],
    by simp [Node.ReplicateKeyValue], ?_⟩
  intro i h
  have he : (n.ReplicateKeyValue { Method := "POST", Body := some r }).1.DB.Store.elems =
      n.DB.Store.elems ++ [r] := by
    simp [Node.ReplicateKeyValue, Slice.append, Slice.elems]
  rw [he, List.getElem?_append_left h, List.getElem?_eq_getElem h]
  rfl

/-! ### One probe -/

theorem computeHash_congr (n m : Node) (h : n.DB = m.DB) : n.computeHash = m.computeHash := by
  simp [Node.computeHash, h]

theorem pingPeer_push_on_mismatch (st : Probe) (peer : String) (h : String)
    (push : CallResult) (hflag : st.peerLoggedUp.get peer = false)
    (hdiff : st.node.computeHash ≠ h) :
    pushesTo peer
        (Node.pingPeer st peer { ping := .status 200, hash := .hash h, push := push }).2 =
      [Event.post peer "/replicateAll" (String.mk (jsonMarshal st.node.DB.Store))] := by
  have hc : ({ st.node with PeerStates := st.node.PeerStates.set peer true } : Node).computeHash =
      st.node.computeHash := computeHash_congr _ _ rfl
  cases push with
  | err => simp [Node.pingPeer, hflag, hc, hdiff, Node.getPeerStoreHash, pushesTo,
      Node.replicateStoreToPeer]
  | status code =>
    by_cases hcode : code = 200 <;>
      simp [Node.pingPeer, hflag, hc, hdiff, Node.getPeerStoreHash, pushesTo,
        Node.replicateStoreToPeer, hcode]

/-- C5. At an up-transition of a peer (an OK ping while its one-shot flag is
false) whose hash fetch gives `h`, no whole-store push is issued when the local
digest equals `h`, and exactly one is issued when they differ: a POST to the
peer's `/replicateAll` whose body is the marshalled local store. -/
theorem push_iff_digests_differ (st : Probe) (peer : String) (h : String) (push : CallResult)
    (hflag : st.peerLoggedUp.get peer = false) :
    pushesTo peer
        (Node.pingPeer st peer { ping := .status 200, hash := .hash h, push := push }).2 =
      if st.node.computeHash = h then []
      else [Event.post peer "/replicateAll" (String.mk (jsonMarshal st.node.DB.Store))] := by
  have hc : ({ st.node with PeerStates := st.node.PeerStates.set peer true } : Node).computeHash =
      st.node.computeHash := computeHash_congr _ _ rfl
  by_cases hh : st.node.computeHash = h
  · simp [Node.pingPeer, hflag, hc, hh, Node.getPeerStoreHash, pushesTo]
  · cases push with
    | err => simp [Node.pingPeer, hflag, hc, hh, Node.getPeerStoreHash, pushesTo,
        Node.replicateStoreToPeer]
    | status code =>
      by_cases hcode : code = 200 <;>
        simp [Node.pingPeer, hflag, hc, hh, Node.getPeerStoreHash, pushesTo,
          Node.replicateStoreToPeer, hcode]

set_option maxRecDepth 100000 in
theorem push_iff_digests_differ_witness :
    GoMap.get [] "http://localhost:8001" = false ∧
      pushesTo "http://localhost:8001"
          (Node.pingPeer { node := NewNode exampleConfig, peerLoggedUp := [], allUp := true }
            "http://localhost:8001"
            { ping := .status 200
              hash := .hash "4f53cda18c2baa0c0354bb5f9a3ecbe5ed12ab4d8e11ba873c2f11161202b945"
              push := .status 200 }).2 =
        [Event.post "http://localhost:8001" "/replicateAll" "null"] :=
  ⟨rfl, (push_iff_digests_differ
    { node := NewNode exampleConfig, peerLoggedUp := [], allUp := true }
    "http://localhost:8001" "4f53cda18c2baa0c0354bb5f9a3ecbe5ed12ab4d8e11ba873c2f11161202b945"
    (.status 200) rfl).trans (by decide)⟩

/-- C6, amended. A probe that ends in a request error leaves the peer down:
its entry of `PeerStates` and its one-shot flag are false. A probe answered
with a status other than 200 changes neither the node nor the one-shot flags. -/
theorem probe_error_marks_down (st : Probe) (peer : String) (h : HashResult)
    (push : CallResult) :
    ((Node.pingPeer st peer { ping := .err, hash := h, push := push }).1.node.PeerStates.get peer
          = false ∧
        (Node.pingPeer st peer { ping := .err, hash := h, push := push }).1.peerLoggedUp.get peer
          = false) ∧
      ∀ code, code ≠ 200 →
        (Node.pingPeer st peer { ping := .status code, hash := h, push := push }).1.node =
            st.node ∧
          (Node.pingPeer st peer { ping := .status code, hash := h, push := push }).1.peerLoggedUp =
            st.peerLoggedUp := by
  refine ⟨⟨?_, ?_⟩, ?_⟩
  · simp [Node.pingPeer, GoMap.get_set_self]
  · simp [Node.pingPeer, GoMap.get_set_self]
  · intro code hcode
    simp [Node.pingPeer, hcode]

/-- C6, counterexample. One peer answers the first ping with 200 and the second
with 500: after the second cycle its entry of `PeerStates` and its one-shot
flag are still true. -/
theorem non_ok_status_keeps_peer_up :
    (((System.start exampleConfig).run
          [Action.cycle (pingStatus 200), Action.cycle (pingStatus 500)]).1.node.PeerStates.get
        "http://localhost:8001" = true) ∧
      (((System.start exampleConfig).run
          [Action.cycle (pingStatus 200), Action.cycle (pingStatus 500)]).1.vars.peerLoggedUp.get
        "http://localhost:8001" = true) := by
  decide

/-! ### The one-shot synchronization -/

theorem pingPeer_self (st : Probe) (p : String) (e : PeerEnv) :
    (Node.pingPeer st p e).1.peerLoggedUp.get p = flagAfter (st.peerLoggedUp.get p) e.ping ∧
      (syncsWith p (Node.pingPeer st p e).2).length =
        (if upTransition (st.peerLoggedUp.get p) e.ping then 1 else 0) ∧
      (pushesTo p (Node.pingPeer st p e).2).length ≤
        (syncsWith p (Node.pingPeer st p e).2).length := by
  rcases e with ⟨ping, hash, push⟩
  cases ping with
  | err => simp [Node.pingPeer, GoMap.get_set_self, flagAfter, upTransition, syncsWith, pushesTo]
  | status code =>
    by_cases hcode : code = 200
    · subst hcode
      cases hflag : st.peerLoggedUp.get p
      · cases hash with
        | err =>
          simp [Node.pingPeer, GoMap.get_set_self, flagAfter, upTransition, syncsWith, pushesTo,
            hflag, Node.getPeerStoreHash]
        | hash h =>
          by_cases hh : ({ st.node with PeerStates := st.node.PeerStates.set p true } :
              Node).computeHash = h
          · simp [Node.pingPeer, GoMap.get_set_self, flagAfter, upTransition, syncsWith,
              pushesTo, hflag, Node.getPeerStoreHash, hh]
          · cases push with
            | err =>
              simp [Node.pingPeer, GoMap.get_set_self, flagAfter, upTransition, syncsWith,
                pushesTo, hflag, Node.getPeerStoreHash, hh, Node.replicateStoreToPeer]
            | status c =>
              by_cases hc : c = 200 <;>
                simp [Node.pingPeer, GoMap.get_set_self, flagAfter, upTransition, syncsWith,
                  pushesTo, hflag, Node.getPeerStoreHash, hh, Node.replicateStoreToPeer, hc]
      · simp [Node.pingPeer, flagAfter, upTransition, syncsWith, pushesTo, hflag]
    · simp [Node.pingPeer, flagAfter, upTransition, syncsWith, pushesTo, hcode]

theorem pingPeer_other (st : Probe) (peer p : String) (e : PeerEnv) (hne : peer ≠ p) :
    (Node.pingPeer st peer e).1.peerLoggedUp.get p = st.peerLoggedUp.get p ∧
      syncsWith p (Node.pingPeer st peer e).2 = [] ∧
      pushesTo p (Node.pingPeer st peer e).2 = [] := by
  rcases e with ⟨ping, hash, push⟩
  cases ping with
  | err => simp [Node.pingPeer, GoMap.get_set_ne, hne, syncsWith, pushesTo]
  | status code =>
    by_cases hcode : code = 200
    · subst hcode
      cases hflag : st.peerLoggedUp.get peer
      · cases hash with
        | err =>
          simp [Node.pingPeer, GoMap.get_set_ne, hne, syncsWith, pushesTo,
            hflag, Node.getPeerStoreHash]
        | hash h =>
          by_cases hh : ({ st.node with PeerStates := st.node.PeerStates.set peer true } :
              Node).computeHash = h
          · simp [Node.pingPeer, GoMap.get_set_ne, hne, syncsWith,
              pushesTo, hflag, Node.getPeerStoreHash, hh]
          · cases push with
            | err =>
              simp [Node.pingPeer, GoMap.get_set_ne, hne, syncsWith,
                pushesTo, hflag, Node.getPeerStoreHash, hh, Node.replicateStoreToPeer]
            | status c =>
              by_cases hc : c = 200 <;>
                simp [Node.pingPeer, GoMap.get_set_ne, hne, syncsWith,
                  pushesTo, hflag, Node.getPeerStoreHash, hh, Node.replicateStoreToPeer, hc]
      · simp [Node.pingPeer, syncsWith, pushesTo, hflag]
    · simp [Node.pingPeer, syncsWith, pushesTo, hcode]

theorem syncsWith_append (p : String) (a b : List Event) :
    syncsWith p (a ++ b) = syncsWith p a ++ syncsWith p b := by
  simp [syncsWith]

theorem pushesTo_append (p : String) (a b : List Event) :
    pushesTo p (a ++ b) = pushesTo p a ++ pushesTo p b := by
  simp [pushesTo]

theorem flagAfterAll_append (b : Bool) (xs ys : List CallResult) :
    flagAfterAll b (xs ++ ys) = flagAfterAll (flagAfterAll b xs) ys := by
  induction xs generalizing b with
  | nil => rfl
  | cons x xs ih => simp [flagAfterAll, ih]

theorem countUp_append (b : Bool) (xs ys : List CallResult) :
    countUp b (xs ++ ys) = countUp b xs + countUp (flagAfterAll b xs) ys := by
  induction xs generalizing b with
  | nil => simp [countUp, flagAfterAll]
  | cons x xs ih => simp [countUp, flagAfterAll, ih, Nat.add_assoc]

theorem pingLoop_spec (env : Nat → PeerEnv) (p : String) (peers : List String) :
    ∀ (i : Nat) (st : Probe),
      (Node.pingLoop env i peers st).1.peerLoggedUp.get p =
          flagAfterAll (st.peerLoggedUp.get p) (pingsOf p env i peers) ∧
        (syncsWith p (Node.pingLoop env i peers st).2).length =
          countUp (st.peerLoggedUp.get p) (pingsOf p env i peers) ∧
        (pushesTo p (Node.pingLoop env i peers st).2).length ≤
          (syncsWith p (Node.pingLoop env i peers st).2).length := by
  induction peers with
  | nil => intro i st; simp [Node.pingLoop, pingsOf, flagAfterAll, countUp, syncsWith, pushesTo]
  | cons peer rest ih =>
    intro i st
    obtain ⟨h1, h2, h3⟩ := ih (i + 1) (Node.pingPeer st peer (env i)).1
    simp only [Node.pingLoop, pingsOf, syncsWith_append, pushesTo_append, List.length_append]
    by_cases hp : peer = p
    · subst hp
      obtain ⟨g1, g2, g3⟩ := pingPeer_self st peer (env i)
      simp only [if_true, List.singleton_append, flagAfterAll, countUp]
      rw [h2] at h3
      rw [g2] at g3
      rw [g1] at h1 h2 h3
      rw [h1, h2, g2]
      exact ⟨rfl, rfl, by omega⟩
    · obtain ⟨g1, g2, g3⟩ := pingPeer_other st peer p (env i) hp
      simp only [if_neg hp, List.nil_append]
      rw [h2] at h3
      rw [g1] at h1 h2 h3
      rw [h1, h2, g2, g3]
      exact ⟨rfl, by simp, by simpa using h3⟩

theorem pingPeer_frame (st : Probe) (peer : String) (e : PeerEnv) :
    (Node.pingPeer st peer e).1.node.Peers = st.node.Peers ∧
      (Node.pingPeer st peer e).1.node.DB = st.node.DB ∧
      ((Node.pingPeer st peer e).1.node.PeerStates = st.node.PeerStates ∨
        ∃ v, (Node.pingPeer st peer e).1.node.PeerStates = st.node.PeerStates.set peer v) := by
  rcases e with ⟨ping, hash, push⟩
  cases ping with
  | err => simp [Node.pingPeer]
  | status code =>
    by_cases hcode : code = 200
    · subst hcode
      cases hflag : st.peerLoggedUp.get peer
      · cases hash with
        | err => simp [Node.pingPeer, hflag, Node.getPeerStoreHash]
        | hash h =>
          by_cases hh : ({ st.node with PeerStates := st.node.PeerStates.set peer true } :
              Node).computeHash = h
          · simp [Node.pingPeer, hflag, Node.getPeerStoreHash, hh]
          · simp [Node.pingPeer, hflag, Node.getPeerStoreHash, hh]
      · simp [Node.pingPeer, hflag]
    · simp [Node.pingPeer, hcode]

theorem pingLoop_frame (env : Nat → PeerEnv) (peers : List String) :
    ∀ (i : Nat) (st : Probe),
      (Node.pingLoop env i peers st).1.node.Peers = st.node.Peers ∧
        (Node.pingLoop env i peers st).1.node.DB = st.node.DB := by
  induction peers with
  | nil => intro i st; simp [Node.pingLoop]
  | cons peer rest ih =>
    intro i st
    obtain ⟨h1, h2⟩ := ih (i + 1) (Node.pingPeer st peer (env i)).1
    obtain ⟨g1, g2, _⟩ := pingPeer_frame st peer (env i)
    simp only [Node.pingLoop]
    exact ⟨h1.trans g1, h2.trans g2⟩

theorem pingCycle_spec (n : Node) (v : PingVars) (env : Nat → PeerEnv) (p : String) :
    (n.pingCycle v env).1.Peers = n.Peers ∧
      (n.pingCycle v env).2.1.peerLoggedUp.get p =
        flagAfterAll (v.peerLoggedUp.get p) (pingsOf p env 0 n.Peers) ∧
      (syncsWith p (n.pingCycle v env).2.2).length =
        countUp (v.peerLoggedUp.get p) (pingsOf p env 0 n.Peers) ∧
      (pushesTo p (n.pingCycle v env).2.2).length ≤
        (syncsWith p (n.pingCycle v env).2.2).length := by
  obtain ⟨h1, h2, h3⟩ := pingLoop_spec env p n.Peers 0
    { node := n, peerLoggedUp := v.peerLoggedUp, allUp := true }
  obtain ⟨f1, _⟩ := pingLoop_frame env n.Peers 0
    { node := n, peerLoggedUp := v.peerLoggedUp, allUp := true }
  have hs : ∀ b : Bool, syncsWith p (if b then [Event.logAllPeersUp] else []) = [] := by
    intro b; cases b <;> simp [syncsWith]
  have hp : ∀ b : Bool, pushesTo p (if b then [Event.logAllPeersUp] else []) = [] := by
    intro b; cases b <;> simp [pushesTo]
  simp only [Node.pingCycle, syncsWith_append, pushesTo_append, hs, hp, List.append_nil]
  exact ⟨f1, h1, h2, h3⟩

theorem replicateToPeers_quiet (body : String) (env : Nat → CallResult) (p : String)
    (peers : List String) :
    ∀ i, syncsWith p (replicateToPeers body env i peers) = [] ∧
      pushesTo p (replicateToPeers body env i peers) = [] := by
  induction peers with
  | nil => intro i; simp [replicateToPeers, syncsWith, pushesTo]
  | cons peer rest ih =>
    intro i
    obtain ⟨h1, h2⟩ := ih (i + 1)
    simp only [replicateToPeers, syncsWith_append, pushesTo_append, h1, h2, List.append_nil]
    cases env i with
    | err => simp [syncsWith, pushesTo]
    | status code => by_cases hc : code = 200 <;> simp [syncsWith, pushesTo, hc]

theorem StoreKeyValue_frame (n : Node) (r : Request KeyValue) (env : Nat → CallResult)
    (p : String) :
    (n.StoreKeyValue r env).1.Peers = n.Peers ∧
      (n.StoreKeyValue r env).1.PeerStates = n.PeerStates ∧
      syncsWith p (n.StoreKeyValue r env).2.2 = [] ∧
      pushesTo p (n.StoreKeyValue r env).2.2 = [] := by
  unfold Node.StoreKeyValue
  by_cases hm : r.Method = "POST"
  · cases hb : r.Body with
    | none => simp [hm, syncsWith, pushesTo]
    | some kv =>
      obtain ⟨h1, h2⟩ := replicateToPeers_quiet (String.mk (marshalKeyValue kv)) env p n.Peers 0
      simp [hm, h1, h2]
  · simp [hm, syncsWith, pushesTo]

theorem ReplicateKeyValue_frame (n : Node) (r : Request Store) :
    (n.ReplicateKeyValue r).1.Peers = n.Peers ∧
      (n.ReplicateKeyValue r).1.PeerStates = n.PeerStates := by
  unfold Node.ReplicateKeyValue
  by_cases hm : r.Method = "POST"
  · cases hb : r.Body <;> simp [hm]
  · simp [hm]

theorem AcceptReplicateAll_frame (n : Node) (r : Request (Slice Store)) :
    (n.AcceptReplicateAll r).1.Peers = n.Peers ∧
      (n.AcceptReplicateAll r).1.PeerStates = n.PeerStates := by
  unfold Node.AcceptReplicateAll
  by_cases hm : r.Method = "POST"
  · cases hb : r.Body <;> simp [hm]
  · simp [hm]

theorem GetValue_frame (n : Node) (r : Request KeyQuery) : (n.GetValue r).1 = n := by
  unfold Node.GetValue
  by_cases hm : r.Method = "GET"
  · cases hb : r.Body <;> simp [hm]
  · simp [hm]

theorem Pong_frame (n : Node) (r : Request Unit) : (n.Pong r).1 = n := by
  unfold Node.Pong
  by_cases hm : r.Method = "GET" <;> simp [hm]

theorem step_spec (s : System) (a : Action) (p : String) :
    (s.step a).1.node.Peers = s.node.Peers ∧
      (s.step a).1.vars.peerLoggedUp.get p =
        flagAfterAll (s.vars.peerLoggedUp.get p) (pingsIn p s.node.Peers [a]) ∧
      (syncsWith p (s.step a).2).length =
        countUp (s.vars.peerLoggedUp.get p) (pingsIn p s.node.Peers [a]) ∧
      (pushesTo p (s.step a).2).length ≤ (syncsWith p (s.step a).2).length := by
  cases a with
  | cycle env =>
    simpa [System.step, pingsIn] using pingCycle_spec s.node s.vars env p
  | storeKeyValue r env =>
    obtain ⟨h1, _, h3, h4⟩ := StoreKeyValue_frame s.node r env p
    simp [System.step, pingsIn, flagAfterAll, countUp, h1, h3, h4]
  | replicateKeyValue r =>
    simp [System.step, pingsIn, flagAfterAll, countUp, (ReplicateKeyValue_frame s.node r).1,
      syncsWith, pushesTo]
  | acceptReplicateAll r =>
    simp [System.step, pingsIn, flagAfterAll, countUp, (AcceptReplicateAll_frame s.node r).1,
      syncsWith, pushesTo]
  | getValue r =>
    simp [System.step, pingsIn, flagAfterAll, countUp, GetValue_frame, syncsWith, pushesTo]
  | storeHash r =>
    simp [System.step, pingsIn, flagAfterAll, countUp, Node.StoreHash, syncsWith, pushesTo]
  | pong r =>
    simp [System.step, pingsIn, flagAfterAll, countUp, Pong_frame, syncsWith, pushesTo]

theorem pingsIn_cons (p : String) (peers : List String) (a : Action) (rest : List Action) :
    pingsIn p peers (a :: rest) = pingsIn p peers [a] ++ pingsIn p peers rest := by
  cases a <;> simp [pingsIn]

theorem run_spec (p : String) (acts : List Action) :
    ∀ s : System,
      (s.run acts).1.node.Peers = s.node.Peers ∧
        (s.run acts).1.vars.peerLoggedUp.get p =
          flagAfterAll (s.vars.peerLoggedUp.get p) (pingsIn p s.node.Peers acts) ∧
        (syncsWith p (s.run acts).2.flatten).length =
          countUp (s.vars.peerLoggedUp.get p) (pingsIn p s.node.Peers acts) ∧
        (pushesTo p (s.run acts).2.flatten).length ≤
          (syncsWith p (s.run acts).2.flatten).length := by
  induction acts with
  | nil => intro s; simp [System.run, pingsIn, flagAfterAll, countUp, syncsWith, pushesTo]
  | cons a rest ih =>
    intro s
    obtain ⟨h1, h2, h3, h4⟩ := ih (s.step a).1
    obtain ⟨g1, g2, g3, g4⟩ := step_spec s a p
    rw [g1] at h1 h2 h3
    rw [g2] at h2 h3
    simp only [System.run, List.flatten_cons, syncsWith_append, pushesTo_append,
      List.length_append]
    rw [pingsIn_cons, flagAfterAll_append, countUp_append, h1, h2, h3, g3]
    exact ⟨rfl, rfl, rfl, by omega⟩

/-- C4. From the start of the node, through any run of cycles and requests:
the number of synchronization attempts for a peer in a cycle is the number of
Down→Up transitions among its probes of that cycle (OK answers while the
one-shot flag is false), whatever the hash fetch and the push answer; over the
whole run the attempts are as many as the transitions; and the whole-store
pushes are at most as many as the attempts. -/
theorem sync_exactly_on_up_transitions (cfg : Config) (acts : List Action)
    (env : Nat → PeerEnv) (p : String) :
    (syncsWith p (((System.start cfg).run acts).1.step (Action.cycle env)).2).length =
        countUp (flagAfterAll false (pingsIn p cfg.Peers acts)) (pingsOf p env 0 cfg.Peers) ∧
      (pushesTo p (((System.start cfg).run acts).1.step (Action.cycle env)).2).length ≤
        (syncsWith p (((System.start cfg).run acts).1.step (Action.cycle env)).2).length ∧
      (syncsWith p ((System.start cfg).run acts).2.flatten).length =
        countUp false (pingsIn p cfg.Peers acts) ∧
      (pushesTo p ((System.start cfg).run acts).2.flatten).length ≤
        countUp false (pingsIn p cfg.Peers acts) := by
  obtain ⟨h1, h2, h3, h4⟩ := run_spec p acts (System.start cfg)
  obtain ⟨_, _, g3, g4⟩ := step_spec ((System.start cfg).run acts).1 (Action.cycle env) p
  have hstart : (System.start cfg).vars.peerLoggedUp.get p = false := rfl
  have hpeers : (System.start cfg).node.Peers = cfg.Peers := rfl
  rw [hstart, hpeers] at h2 h3
  rw [hpeers] at h1
  rw [h1, h2] at g3
  simp only [pingsIn, List.append_nil] at g3
  exact ⟨g3, g4, h3, h3 ▸ h4⟩

/-! ### The peer-state map -/

theorem GoMap.mem_set (m : GoMap) (k : String) (v : Bool) (e : String × Bool)
    (h : e ∈ m.set k v) : e ∈ m ∨ e = (k, v) := by
  unfold GoMap.set at h
  split at h
  · rcases List.mem_map.1 h with ⟨x, hx, rfl⟩
    by_cases hk : (x.1 == k) = true
    · right; simp [hk]
    · left; simpa [hk] using hx
  · simpa using h

theorem initPeerStates_spec (peers : List String) :
    ∀ m : GoMap, m.keys.Nodup → (∀ e ∈ m, e.2 = false) →
      (initPeerStates peers m).keys.Nodup ∧
        (∀ k, k ∈ (initPeerStates peers m).keys ↔ k ∈ m.keys ∨ k ∈ peers) ∧
        ∀ e ∈ initPeerStates peers m, e.2 = false := by
  induction peers with
  | nil =>
    intro m hm hv
    simp only [initPeerStates]
    exact ⟨hm, by simp, hv⟩
  | cons peer rest ih =>
    intro m hm hv
    have hv2 : ∀ e ∈ m.set peer false, e.2 = false := by
      intro e he
      rcases GoMap.mem_set m peer false e he with h | rfl
      · exact hv e h
      · rfl
    obtain ⟨h1, h2, h3⟩ := ih (m.set peer false) (GoMap.nodup_keys_set m peer false hm) hv2
    refine ⟨h1, ?_, h3⟩
    intro k
    simp only [initPeerStates]
    rw [h2 k, GoMap.mem_keys_set, List.mem_cons]
    tauto

theorem KeysAre.set {peers : List String} {m : GoMap} (h : KeysAre peers m) (k : String)
    (v : Bool) (hk : k ∈ peers) : KeysAre peers (m.set k v) := by
  refine ⟨GoMap.nodup_keys_set m k v h.1, ?_⟩
  intro x
  rw [GoMap.mem_keys_set, h.2 x]
  constructor
  · rintro (hx | rfl)
    · exact hx
    · exact hk
  · exact Or.inl

theorem pingLoop_keys (env : Nat → PeerEnv) (peers : List String) (rest : List String) :
    ∀ (i : Nat) (st : Probe), (∀ k ∈ rest, k ∈ peers) → KeysAre peers st.node.PeerStates →
      KeysAre peers (Node.pingLoop env i rest st).1.node.PeerStates := by
  induction rest with
  | nil => intro i st _ h; simpa [Node.pingLoop] using h
  | cons peer rest ih =>
    intro i st hsub h
    simp only [Node.pingLoop]
    apply ih (i + 1) _ (fun k hk => hsub k (List.mem_cons_of_mem _ hk))
    obtain ⟨_, _, hs | ⟨v, hs⟩⟩ := pingPeer_frame st peer (env i)
    · rw [hs]; exact h
    · rw [hs]; exact h.set peer v (hsub peer (List.mem_cons_self _ _))

theorem step_keys (peers : List String) (s : System) (a : Action)
    (hp : s.node.Peers = peers) (h : KeysAre peers s.node.PeerStates) :
    KeysAre peers (s.step a).1.node.PeerStates := by
  cases a with
  | cycle env =>
    simp only [System.step, Node.pingCycle]
    exact pingLoop_keys env peers s.node.Peers 0 _ (fun k hk => hp ▸ hk) h
  | storeKeyValue r env =>
    simpa [System.step, (StoreKeyValue_frame s.node r env "").2.1] using h
  | replicateKeyValue r =>
    simpa [System.step, (ReplicateKeyValue_frame s.node r).2] using h
  | acceptReplicateAll r =>
    simpa [System.step, (AcceptReplicateAll_frame s.node r).2] using h
  | getValue r => simpa [System.step, GetValue_frame] using h
  | storeHash r => simpa [System.step, Node.StoreHash] using h
  | pong r => simpa [System.step, Pong_frame] using h

theorem run_keys (peers : List String) (acts : List Action) :
    ∀ s : System, s.node.Peers = peers → KeysAre peers s.node.PeerStates →
      KeysAre peers (s.run acts).1.node.PeerStates := by
  induction acts with
  | nil => intro s _ h; simpa [System.run] using h
  | cons a rest ih =>
    intro s hp h
    simp only [System.run]
    exact ih (s.step a).1 ((step_spec s a "").1.trans hp) (step_keys peers s a hp h)

/-- C10. In the node `NewNode` returns, the keys of `PeerStates` are the
configured peers, each once, and every entry is false; after any run of probe
cycles and inbound requests the keys are still the configured peers. -/
theorem PeerStates_keys_fixed (cfg : Config) (acts : List Action) :
    ((NewNode cfg).PeerStates.keys.Nodup ∧
        (∀ k, k ∈ (NewNode cfg).PeerStates.keys ↔ k ∈ cfg.Peers) ∧
        ∀ e ∈ (NewNode cfg).PeerStates, e.2 = false) ∧
      ((System.start cfg).run acts).1.node.PeerStates.keys.Nodup ∧
      ∀ k, k ∈ ((System.start cfg).run acts).1.node.PeerStates.keys ↔ k ∈ cfg.Peers := by
  obtain ⟨h1, h2, h3⟩ := initPeerStates_spec cfg.Peers [] (by simp [GoMap.keys]) (by simp)
  have h2' : ∀ k, k ∈ (NewNode cfg).PeerStates.keys ↔ k ∈ cfg.Peers := by
    intro k
    have := h2 k
    simpa [NewNode, GoMap.keys] using this
  have hk : KeysAre cfg.Peers (System.start cfg).node.PeerStates := ⟨h1, h2'⟩
  exact ⟨⟨h1, h2', h3⟩, run_keys cfg.Peers acts (System.start cfg) rfl hk⟩

/-! ### Malformed requests -/

/-- C9. `StoreKeyValue`, `ReplicateKeyValue`, `AcceptReplicateAll`, `GetValue`
and `Pong` answer a request with the wrong method or a body that fails to
decode with 405 or 400 and leave the node as it is. `StoreHash` leaves the node
as it is too, but it checks no method: a POST is answered 200. -/
theorem malformed_requests :
    (∀ (n : Node) (r : Request KeyValue) (env : Nat → CallResult),
        r.Method ≠ "POST" ∨ r.Body = none →
          (n.StoreKeyValue r env).1 = n ∧ (n.StoreKeyValue r env).2.2 = [] ∧
            ((n.StoreKeyValue r env).2.1.Status = 405 ∨
              (n.StoreKeyValue r env).2.1.Status = 400)) ∧
      (∀ (n : Node) (r : Request Store), r.Method ≠ "POST" ∨ r.Body = none →
          (n.ReplicateKeyValue r).1 = n ∧
            ((n.ReplicateKeyValue r).2.Status = 405 ∨ (n.ReplicateKeyValue r).2.Status = 400)) ∧
      (∀ (n : Node) (r : Request (Slice Store)), r.Method ≠ "POST" ∨ r.Body = none →
          (n.AcceptReplicateAll r).1 = n ∧
            ((n.AcceptReplicateAll r).2.Status = 405 ∨
              (n.AcceptReplicateAll r).2.Status = 400)) ∧
      (∀ (n : Node) (r : Request KeyQuery), r.Method ≠ "GET" ∨ r.Body = none →
          (n.GetValue r).1 = n ∧
            ((n.GetValue r).2.Status = 405 ∨ (n.GetValue r).2.Status = 400)) ∧
      (∀ (n : Node) (r : Request Unit), r.Method ≠ "GET" →
          (n.Pong r).1 = n ∧ (n.Pong r).2.Status = 405) ∧
      (∀ (n : Node) (r : Request Unit), (n.StoreHash r).1 = n) ∧
      ((NewNode exampleConfig).StoreHash { Method := "POST", Body := none }).2.Status = 200 := by
  refine ⟨?_, ?_, ?_, ?_, ?_, ?_, rfl⟩
  · intro n r env h
    unfold Node.StoreKeyValue
    by_cases hm : r.Method = "POST"
    · rcases h with h | h
      · exact absurd hm h
      · simp [hm, h, httpError]
    · simp [hm, httpError]
  · intro n r h
    unfold Node.ReplicateKeyValue
    by_cases hm : r.Method = "POST"
    · rcases h with h | h
      · exact absurd hm h
      · simp [hm, h, httpError]
    · simp [hm, httpError]
  · intro n r h
    unfold Node.AcceptReplicateAll
    by_cases hm : r.Method = "POST"
    · rcases h with h | h
      · exact absurd hm h
      · simp [hm, h, httpError]
    · simp [hm, httpError]
  · intro n r h
    unfold Node.GetValue
    by_cases hm : r.Method = "GET"
    · rcases h with h | h
      · exact absurd hm h
      · simp [hm, h, httpError]
    · simp [hm, httpError]
  · intro n r h
    simp [Node.Pong, h, httpError]
  · intro n r
    rfl

/-! ### `json.Marshal` is one-to-one -/

theorem hexVal_hexDigit (n : Nat) (h : n < 16) : hexVal (hexDigit n) = n := by
  interval_cases n <;> rfl

theorem char_eq_of_toNat {c : Char} {n : Nat} (h : c.toNat = n) : c = Char.ofNat n := by
  rw [← h, Char.ofNat_toNat]

theorem unescape_escapeChar (c : Char) (x : List Char) :
    unescape (escapeChar c ++ x) = some (c, x) := by
  by_cases h1 : c = '"'
  · subst h1; simp [escapeChar, unescape, unescapeTail]
  by_cases h2 : c = '\\'
  · subst h2; simp [escapeChar, unescape, unescapeTail]
  by_cases h3 : c.toNat = 8
  · simp [escapeChar, h1, h2, h3, unescape, unescapeTail, char_eq_of_toNat h3]
  by_cases h4 : c.toNat = 12
  · simp [escapeChar, h1, h2, h3, h4, unescape, unescapeTail, char_eq_of_toNat h4]
  by_cases h5 : c.toNat = 10
  · simp [escapeChar, h1, h2, h3, h4, h5, unescape, unescapeTail, char_eq_of_toNat h5]
  by_cases h6 : c.toNat = 13
  · simp [escapeChar, h1, h2, h3, h4, h5, h6, unescape, unescapeTail, char_eq_of_toNat h6]
  by_cases h7 : c.toNat = 9
  · simp [escapeChar, h1, h2, h3, h4, h5, h6, h7, unescape, unescapeTail, char_eq_of_toNat h7]
  by_cases h8 : c.toNat < 32 ∨ c = '<' ∨ c = '>' ∨ c = '&'
  · have hlt : c.toNat < 256 := by
      rcases h8 with h | rfl | rfl | rfl
      · omega
      · decide
      · decide
      · decide
    have hd : c.toNat / 16 < 16 := by omega
    have hm : c.toNat % 16 < 16 := by omega
    have he : escapeChar c =
        ['\\', 'u', '0', '0', hexDigit (c.toNat / 16), hexDigit (c.toNat % 16)] := by
      unfold escapeChar
      rw [if_neg h1, if_neg h2, if_neg h3, if_neg h4, if_neg h5, if_neg h6, if_neg h7, if_pos h8]
    rw [he]
    simp only [List.cons_append, List.nil_append, unescape, unescapeTail, unescapeHex]
    simp [hexVal_hexDigit _ hd, hexVal_hexDigit _ hm, Nat.div_add_mod]
  by_cases h9 : c.toNat = 8232
  · have he : escapeChar c = ['\\', 'u', '2', '0', '2', '8'] := by
      unfold escapeChar
      rw [if_neg h1, if_neg h2, if_neg h3, if_neg h4, if_neg h5, if_neg h6, if_neg h7, if_neg h8,
        if_pos h9]
    rw [he, char_eq_of_toNat h9]
    simp [unescape, unescapeTail, unescapeHex, hexVal]
  by_cases h10 : c.toNat = 8233
  · have he : escapeChar c = ['\\', 'u', '2', '0', '2', '9'] := by
      unfold escapeChar
      rw [if_neg h1, if_neg h2, if_neg h3, if_neg h4, if_neg h5, if_neg h6, if_neg h7, if_neg h8,
        if_neg h9, if_pos h10]
    rw [he, char_eq_of_toNat h10]
    simp [unescape, unescapeTail, unescapeHex, hexVal]
  have he : escapeChar c = [c] := by
    unfold escapeChar
    rw [if_neg h1, if_neg h2, if_neg h3, if_neg h4, if_neg h5, if_neg h6, if_neg h7, if_neg h8,
      if_neg h9, if_neg h10]
  rw [he]
  simp [unescape, h2]

theorem escapeChar_inj {c d : Char} {x y : List Char}
    (h : escapeChar c ++ x = escapeChar d ++ y) : c = d ∧ x = y := by
  have := congrArg unescape h
  simpa [unescape_escapeChar] using this

theorem escapeChar_not_quote (d : Char) (r x : List Char) : escapeChar d ++ r ≠ '"' :: x := by
  intro h
  have h2 := congrArg unescape h
  rw [unescape_escapeChar] at h2
  have hd : d = '"' := by
    simp [unescape] at h2
    exact h2.1
  subst hd
  simp [escapeChar] at h

theorem escapeChars_inj (s : List Char) :
    ∀ (t x y : List Char), escapeChars s ++ '"' :: x = escapeChars t ++ '"' :: y →
      s = t ∧ x = y := by
  induction s with
  | nil =>
    intro t x y h
    cases t with
    | nil => simpa [escapeChars] using h
    | cons d t =>
      exfalso
      simp only [escapeChars, List.nil_append, List.append_assoc] at h
      exact escapeChar_not_quote d _ x h.symm
  | cons c s ih =>
    intro t x y h
    cases t with
    | nil =>
      exfalso
      simp only [escapeChars, List.nil_append, List.append_assoc] at h
      exact escapeChar_not_quote c _ y h
    | cons d t =>
      simp only [escapeChars, List.append_assoc] at h
      obtain ⟨hcd, hrest⟩ := escapeChar_inj h
      obtain ⟨hst, hxy⟩ := ih t x y hrest
      exact ⟨by rw [hcd, hst], hxy⟩

theorem quote_inj {s t : String} {x y : List Char} (h : quote s ++ x = quote t ++ y) :
    s = t ∧ x = y := by
  simp only [quote, List.cons_append, List.append_assoc, List.singleton_append,
    List.cons.injEq, true_and] at h
  obtain ⟨h1, h2⟩ := escapeChars_inj _ _ _ _ h
  exact ⟨String.ext h1, h2⟩

theorem number_cons (f : Float64) :
    ∃ c cs, f.text.data = c :: cs ∧ (c.isDigit || c == '-') = true ∧
      ∀ d ∈ c :: cs, numChar d = true := by
  have hv := f.valid
  cases hd : f.text.data with
  | nil => rw [hd] at hv; simp [isNumberText] at hv
  | cons c cs =>
    rw [hd] at hv
    simp only [isNumberText, Bool.and_eq_true, List.all_eq_true] at hv
    refine ⟨c, cs, rfl, hv.1, ?_⟩
    intro d hdm
    rcases List.mem_cons.1 hdm with rfl | hdm
    · have h1 := hv.1
      simp only [Bool.or_eq_true] at h1
      simp only [numChar, Bool.or_eq_true]
      rcases h1 with h1 | h1
      · exact Or.inl (Or.inl (Or.inl (Or.inl h1)))
      · exact Or.inl (Or.inl (Or.inl (Or.inr h1)))
    · exact hv.2 d hdm

theorem number_head_ne (g : Float64) (c0 : Char) (y z : List Char)
    (hc : (c0.isDigit || c0 == '-') = false) : g.text.data ++ y ≠ c0 :: z := by
  obtain ⟨c, cs, hg, hd, _⟩ := number_cons g
  intro h
  rw [hg] at h
  simp only [List.cons_append, List.cons.injEq] at h
  rw [h.1, hc] at hd
  exact Bool.false_ne_true hd

theorem numRun_inj (a : List Char) :
    ∀ (b x y : List Char), (∀ c ∈ a, numChar c = true) → (∀ c ∈ b, numChar c = true) →
      Delimited x → Delimited y → a ++ x = b ++ y → a = b ∧ x = y := by
  induction a with
  | nil =>
    intro b x y _ hb hx hy h
    cases b with
    | nil => exact ⟨rfl, h⟩
    | cons d b =>
      exfalso
      simp only [List.nil_append, List.cons_append] at h
      subst h
      have := hb d (List.mem_cons_self _ _)
      simp [Delimited, this] at hx
  | cons c a ih =>
    intro b x y ha hb hx hy h
    cases b with
    | nil =>
      exfalso
      simp only [List.nil_append, List.cons_append] at h
      subst h
      have := ha c (List.mem_cons_self _ _)
      simp [Delimited, this] at hy
    | cons d b =>
      simp only [List.cons_append, List.cons.injEq] at h
      obtain ⟨h1, h2⟩ := ih b x y (fun e he => ha e (List.mem_cons_of_mem _ he))
        (fun e he => hb e (List.mem_cons_of_mem _ he)) hx hy h.2
      exact ⟨by rw [h.1, h1], h2⟩

theorem marshalAny_head (a : GoAny) :
    ∃ c rest, marshalAny a = c :: rest ∧ startsValue c = true := by
  cases a with
  | null => exact ⟨'n', ['u', 'l', 'l'], by simp [marshalAny], by decide⟩
  | bool b => cases b <;> simp [marshalAny] <;> decide
  | float64 f =>
    obtain ⟨c, cs, hf, hc, _⟩ := number_cons f
    refine ⟨c, cs, by simp [marshalAny, hf], ?_⟩
    simp only [Bool.or_eq_true] at hc
    simp only [startsValue, Bool.or_eq_true]
    rcases hc with hc | hc
    · simp [hc]
    · simp [hc]
  | str s => exact ⟨'"', escapeChars s.data ++ ['"'], by simp [marshalAny, quote], by decide⟩
  | slice l => exact ⟨'[', marshalList l, by simp [marshalAny], by decide⟩
  | map m => exact ⟨'{', marshalFields m, by simp [marshalAny], by decide⟩

theorem marshalAny_head_ne (a : GoAny) (c0 : Char) (y z : List Char)
    (hc : startsValue c0 = false) : marshalAny a ++ y ≠ c0 :: z := by
  obtain ⟨c, rest, ha, hs⟩ := marshalAny_head a
  intro h
  rw [ha] at h
  simp only [List.cons_append, List.cons.injEq] at h
  rw [h.1, hc] at hs
  exact Bool.false_ne_true hs

theorem delimited_listRest (l : GoList) (x : List Char) : Delimited (marshalListRest l ++ x) := by
  cases l <;> simp [marshalListRest, Delimited] <;> decide

theorem delimited_fieldsRest (m : GoFields) (x : List Char) :
    Delimited (marshalFieldsRest m ++ x) := by
  cases m <;> simp [marshalFieldsRest, Delimited] <;> decide

mutual
theorem marshalAny_inj : ∀ (a b : GoAny) (x y : List Char),
    marshalAny a ++ x = marshalAny b ++ y → Delimited x → Delimited y → a = b ∧ x = y
  | .null, b, x, y, h, _, _ => by
    cases b with
    | null => simpa [marshalAny] using h
    | bool b => cases b <;> simp [marshalAny] at h
    | float64 g => exact absurd h.symm (number_head_ne g 'n' _ _ (by decide))
    | str s => simp [marshalAny, quote] at h
    | slice l => simp [marshalAny] at h
    | map m => simp [marshalAny] at h
  | .bool c, b, x, y, h, _, _ => by
    cases b with
    | null => cases c <;> simp [marshalAny] at h
    | bool b => cases c <;> cases b <;> simp [marshalAny] at h <;> simp [h]
    | float64 g =>
      cases c
      · exact absurd h.symm (number_head_ne g 'f' _ _ (by decide))
      · exact absurd h.symm (number_head_ne g 't' _ _ (by decide))
    | str s => cases c <;> simp [marshalAny, quote] at h
    | slice l => cases c <;> simp [marshalAny] at h
    | map m => cases c <;> simp [marshalAny] at h
  | .float64 f, b, x, y, h, hx, hy => by
    cases b with
    | null => exact absurd h (number_head_ne f 'n' _ _ (by decide))
    | bool b =>
      cases b
      · exact absurd h (number_head_ne f 'f' _ _ (by decide))
      · exact absurd h (number_head_ne f 't' _ _ (by decide))
    | float64 g =>
      obtain ⟨_, _, hf, _, hfa⟩ := number_cons f
      obtain ⟨_, _, hg, _, hga⟩ := number_cons g
      have hfa2 : ∀ c ∈ f.text.data, numChar c = true := by rw [hf]; exact hfa
      have hga2 : ∀ c ∈ g.text.data, numChar c = true := by rw [hg]; exact hga
      obtain ⟨h1, h2⟩ := numRun_inj _ _ x y hfa2 hga2 hx hy h
      refine ⟨?_, h2⟩
      cases f with
      | mk ft fv =>
        cases g with
        | mk gt gv =>
          have : ft = gt := String.ext h1
          subst this
          rfl
    | str s => exact absurd h (number_head_ne f '"' _ _ (by decide))
    | slice l => exact absurd h (number_head_ne f '[' _ _ (by decide))
    | map m => exact absurd h (number_head_ne f '{' _ _ (by decide))
  | .str s, b, x, y, h, _, _ => by
    cases b with
    | null => simp [marshalAny, quote] at h
    | bool b => cases b <;> simp [marshalAny, quote] at h
    | float64 g => exact absurd h.symm (number_head_ne g '"' _ _ (by decide))
    | str t =>
      obtain ⟨h1, h2⟩ := quote_inj h
      exact ⟨by rw [h1], h2⟩
    | slice l => simp [marshalAny, quote] at h
    | map m => simp [marshalAny, quote] at h
  | .slice l, b, x, y, h, _, _ => by
    cases b with
    | null => simp [marshalAny] at h
    | bool b => cases b <;> simp [marshalAny] at h
    | float64 g => exact absurd h.symm (number_head_ne g '[' _ _ (by decide))
    | str s => simp [marshalAny, quote] at h
    | slice k =>
      simp only [marshalAny, List.cons_append, List.cons.injEq, true_and] at h
      obtain ⟨h1, h2⟩ := marshalList_inj l k x y h
      exact ⟨by rw [h1], h2⟩
    | map m => simp [marshalAny] at h
  | .map m, b, x, y, h, _, _ => by
    cases b with
    | null => simp [marshalAny] at h
    | bool b => cases b <;> simp [marshalAny] at h
    | float64 g => exact absurd h.symm (number_head_ne g '{' _ _ (by decide))
    | str s => simp [marshalAny, quote] at h
    | slice l => simp [marshalAny] at h
    | map k =>
      simp only [marshalAny, List.cons_append, List.cons.injEq, true_and] at h
      obtain ⟨h1, h2⟩ := marshalFields_inj m k x y h
      exact ⟨by rw [h1], h2⟩
theorem marshalList_inj : ∀ (l k : GoList) (x y : List Char),
    marshalList l ++ x = marshalList k ++ y → l = k ∧ x = y
  | .nil, k, x, y, h => by
    cases k with
    | nil => simpa [marshalList] using h
    | cons b k =>
      simp only [marshalList, List.append_assoc, List.singleton_append] at h
      exact absurd h.symm (marshalAny_head_ne b ']' _ _ (by decide))
  | .cons a l, k, x, y, h => by
    cases k with
    | nil =>
      simp only [marshalList, List.append_assoc, List.singleton_append] at h
      exact absurd h (marshalAny_head_ne a ']' _ _ (by decide))
    | cons b k =>
      simp only [marshalList, List.append_assoc] at h
      obtain ⟨h1, h2⟩ := marshalAny_inj a b _ _ h (delimited_listRest l x)
        (delimited_listRest k y)
      obtain ⟨h3, h4⟩ := marshalListRest_inj l k x y h2
      exact ⟨by rw [h1, h3], h4⟩
theorem marshalListRest_inj : ∀ (l k : GoList) (x y : List Char),
    marshalListRest l ++ x = marshalListRest k ++ y → l = k ∧ x = y
  | .nil, k, x, y, h => by
    cases k with
    | nil => simpa [marshalListRest] using h
    | cons b k => simp [marshalListRest] at h
  | .cons a l, k, x, y, h => by
    cases k with
    | nil => simp [marshalListRest] at h
    | cons b k =>
      simp only [marshalListRest, List.cons_append, List.append_assoc, List.cons.injEq,
        true_and] at h
      obtain ⟨h1, h2⟩ := marshalAny_inj a b _ _ h (delimited_listRest l x)
        (delimited_listRest k y)
      obtain ⟨h3, h4⟩ := marshalListRest_inj l k x y h2
      exact ⟨by rw [h1, h3], h4⟩
theorem marshalFields_inj : ∀ (m k : GoFields) (x y : List Char),
    marshalFields m ++ x = marshalFields k ++ y → m = k ∧ x = y
  | .nil, k, x, y, h => by
    cases k with
    | nil => simpa [marshalFields] using h
    | cons s b k => simp [marshalFields, quote] at h
  | .cons s a m, k, x, y, h => by
    cases k with
    | nil => simp [marshalFields, quote] at h
    | cons t b k =>
      simp only [marshalFields, List.append_assoc, List.cons_append] at h
      obtain ⟨h0, h0r⟩ := quote_inj h
      simp only [List.cons.injEq, true_and] at h0r
      obtain ⟨h1, h2⟩ := marshalAny_inj a b _ _ h0r (delimited_fieldsRest m x)
        (delimited_fieldsRest k y)
      obtain ⟨h3, h4⟩ := marshalFieldsRest_inj m k x y h2
      exact ⟨by rw [h0, h1, h3], h4⟩
theorem marshalFieldsRest_inj : ∀ (m k : GoFields) (x y : List Char),
    marshalFieldsRest m ++ x = marshalFieldsRest k ++ y → m = k ∧ x = y
  | .nil, k, x, y, h => by
    cases k with
    | nil => simpa [marshalFieldsRest] using h
    | cons s b k => simp [marshalFieldsRest] at h
  | .cons s a m, k, x, y, h => by
    cases k with
    | nil => simp [marshalFieldsRest] at h
    | cons t b k =>
      simp only [marshalFieldsRest, List.append_assoc, List.cons_append, List.cons.injEq,
        true_and] at h
      obtain ⟨h0, h0r⟩ := quote_inj h
      simp only [List.cons.injEq, true_and] at h0r
      obtain ⟨h1, h2⟩ := marshalAny_inj a b _ _ h0r (delimited_fieldsRest m x)
        (delimited_fieldsRest k y)
      obtain ⟨h3, h4⟩ := marshalFieldsRest_inj m k x y h2
      exact ⟨by rw [h0, h1, h3], h4⟩
end

theorem marshalStore_inj (r q : Store) (x y : List Char)
    (h : marshalStore r ++ x = marshalStore q ++ y) : r = q ∧ x = y := by
  simp only [marshalStore, List.append_assoc, List.cons_append, List.nil_append,
    List.cons.injEq, true_and] at h
  obtain ⟨hk, h2⟩ := marshalAny_inj r.Key q.Key _ _ h (by simp [Delimited]; decide)
    (by simp [Delimited]; decide)
  simp only [List.cons.injEq, true_and] at h2
  obtain ⟨hv, h3⟩ := marshalAny_inj r.Value q.Value _ _ h2 (by simp [Delimited]; decide)
    (by simp [Delimited]; decide)
  simp only [List.cons.injEq, true_and] at h3
  refine ⟨?_, h3⟩
  cases r; cases q
  simp only at hk hv
  rw [hk, hv]

theorem marshalStoresRest_inj (l : List Store) :
    ∀ (k : List Store) (x y : List Char),
      marshalStoresRest l ++ x = marshalStoresRest k ++ y → l = k ∧ x = y := by
  induction l with
  | nil =>
    intro k x y h
    cases k with
    | nil => simpa [marshalStoresRest] using h
    | cons q k => simp [marshalStoresRest] at h
  | cons r l ih =>
    intro k x y h
    cases k with
    | nil => simp [marshalStoresRest] at h
    | cons q k =>
      simp only [marshalStoresRest, List.cons_append, List.append_assoc, List.cons.injEq,
        true_and] at h
      obtain ⟨h1, h2⟩ := marshalStore_inj r q _ _ h
      obtain ⟨h3, h4⟩ := ih k x y h2
      exact ⟨by rw [h1, h3], h4⟩

theorem marshalStores_inj (l k : List Store) (x y : List Char)
    (h : marshalStores l ++ x = marshalStores k ++ y) : l = k ∧ x = y := by
  cases l with
  | nil =>
    cases k with
    | nil => simpa [marshalStores] using h
    | cons q k => simp [marshalStores, marshalStore] at h
  | cons r l =>
    cases k with
    | nil => simp [marshalStores, marshalStore] at h
    | cons q k =>
      simp only [marshalStores, List.append_assoc] at h
      obtain ⟨h1, h2⟩ := marshalStore_inj r q _ _ h
      obtain ⟨h3, h4⟩ := marshalStoresRest_inj l k x y h2
      exact ⟨by rw [h1, h3], h4⟩

theorem jsonMarshal_inj (s t : Slice Store) (h : jsonMarshal s = jsonMarshal t) : s = t := by
  cases s with
  | none =>
    cases t with
    | none => rfl
    | some k => simp [jsonMarshal] at h
  | some l =>
    cases t with
    | none => simp [jsonMarshal] at h
    | some k =>
      simp only [jsonMarshal, List.cons.injEq, true_and] at h
      have h2 : marshalStores l ++ [] = marshalStores k ++ [] := by simpa using h
      rw [(marshalStores_inj l k [] [] h2).1]

/-! ### Key lookup -/

theorem keyEq_iff (a : GoAny) (k : String) : keyEq a k = true ↔ a = GoAny.str k := by
  cases a <;> simp [keyEq]

theorem scanStore_spec (k : String) (l : List Store) :
    (∃ pre r post, l = pre ++ r :: post ∧ r.Key = GoAny.str k ∧
        (∀ q ∈ pre, q.Key ≠ GoAny.str k) ∧ scanStore k l = valueResponse r.Value) ∨
      ((∀ r ∈ l, r.Key ≠ GoAny.str k) ∧ scanStore k l = httpError "Key not found" 404) := by
  induction l with
  | nil => right; simp [scanStore]
  | cons x xs ih =>
    by_cases hx : keyEq x.Key k = true
    · left
      exact ⟨[], x, xs, rfl, (keyEq_iff _ _).1 hx, by simp, by simp [scanStore, hx]⟩
    · have hne : x.Key ≠ GoAny.str k := fun h => hx ((keyEq_iff _ _).2 h)
      rcases ih with ⟨pre, r, post, hl, hr, hpre, hres⟩ | ⟨hall, hres⟩
      · left
        refine ⟨x :: pre, r, post, by simp [hl], hr, ?_, by simp [scanStore, hx, hres]⟩
        intro q hq
        rcases List.mem_cons.1 hq with rfl | hq
        · exact hne
        · exact hpre q hq
      · right
        refine ⟨?_, by simp [scanStore, hx, hres]⟩
        intro r hr
        rcases List.mem_cons.1 hr with rfl | hr
        · exact hne
        · exact hall r hr

theorem valueBody_inj (v w : GoAny)
    (h : String.mk (['{', '"', 'v', 'a', 'l', 'u', 'e', '"', ':'] ++
          (marshalAny w ++ ['}', Char.ofNat 10])) =
        String.mk (['{', '"', 'v', 'a', 'l', 'u', 'e', '"', ':'] ++
          (marshalAny v ++ ['}', Char.ofNat 10]))) : w = v := by
  have h2 := congrArg String.data h
  simp only [List.cons_append, List.nil_append, List.cons.injEq, true_and] at h2
  exact (marshalAny_inj w v _ _ h2 (by simp [Delimited]; decide) (by simp [Delimited]; decide)).1

/-- C1. `GetValue` on a GET request whose body decodes to the key `k` leaves the
node as it is. When a record of the store has the key `k`, the answer is 200
and its body is the JSON object whose `value` field is the marshalled value of
the first such record in append order, followed by a newline; that body is the
body of no other value. It answers 404 exactly when no record of the store has
a key equal to `k`. -/
theorem GetValue_first_match (n : Node) (k : String) :
    (n.GetValue { Method := "GET", Body := some { Key := k } }).1 = n ∧
    ((∃ pre r post, n.DB.Store.elems = pre ++ r :: post ∧ r.Key = GoAny.str k ∧
          (∀ q ∈ pre, q.Key ≠ GoAny.str k) ∧
          (n.GetValue { Method := "GET", Body := some { Key := k } }).2 =
            { Status := 200
              Body := String.mk (['{', '"', 'v', 'a', 'l', 'u', 'e', '"', ':'] ++
                (marshalAny r.Value ++ ['}', Char.ofNat 10])) } ∧
          ∀ w : GoAny,
            String.mk (['{', '"', 'v', 'a', 'l', 'u', 'e', '"', ':'] ++
                (marshalAny w ++ ['}', Char.ofNat 10])) =
              (n.GetValue { Method := "GET", Body := some { Key := k } }).2.Body →
            w = r.Value) ∨
      ((∀ r ∈ n.DB.Store.elems, r.Key ≠ GoAny.str k) ∧
          (n.GetValue { Method := "GET", Body := some { Key := k } }).2 =
            { Status := 404, Body := "Key not found\n" })) ∧
    ((n.GetValue { Method := "GET", Body := some { Key := k } }).2.Status = 404 ↔
      ∀ r ∈ n.DB.Store.elems, r.Key ≠ GoAny.str k) := by
  have hget : n.GetValue { Method := "GET", Body := some { Key := k } } =
      (n, scanStore k n.DB.Store.elems) := by
    simp [Node.GetValue]
  rw [hget]
  refine ⟨rfl, ?_, ?_⟩
  · rcases scanStore_spec k n.DB.Store.elems with ⟨pre, r, post, hl, hr, hpre, hres⟩ | ⟨hall, hres⟩
    · left
      refine ⟨pre, r, post, hl, hr, hpre, ?_, ?_⟩
      · simp only [hres]; rfl
      · intro w hw
        simp only [hres] at hw
        exact valueBody_inj r.Value w hw
    · right
      refine ⟨hall, ?_⟩
      simp only [hres]
      decide
  · rcases scanStore_spec k n.DB.Store.elems with ⟨pre, r, post, hl, hr, hpre, hres⟩ | ⟨hall, hres⟩
    · simp only [hres]
      constructor
      · intro h
        simp [valueResponse] at h
      · intro h
        exact absurd hr (h r (by simp [hl]))
    · simp only [hres]
      exact ⟨fun _ => hall, fun _ => rfl⟩

/-! ### The digest -/

theorem beBytes_spec (k n : Nat) : (beBytes k n).length = k ∧ ∀ b ∈ beBytes k n, b < 256 := by
  induction k with
  | zero => simp [beBytes]
  | succ k ih =>
    refine ⟨by simp [beBytes, ih.1], ?_⟩
    intro b hb
    simp only [beBytes, List.mem_cons] at hb
    rcases hb with rfl | hb
    · exact Nat.mod_lt _ (by decide)
    · exact ih.2 b hb

theorem wordsBytes_spec (ws : List Nat) :
    (wordsBytes ws).length = 4 * ws.length ∧ ∀ b ∈ wordsBytes ws, b < 256 := by
  induction ws with
  | nil => simp [wordsBytes]
  | cons w ws ih =>
    refine ⟨by simp [wordsBytes, (beBytes_spec 4 w).1, ih.1]; omega, ?_⟩
    intro b hb
    simp only [wordsBytes, List.mem_append] at hb
    rcases hb with hb | hb
    · exact (beBytes_spec 4 w).2 b hb
    · exact ih.2 b hb

theorem sha256Round_length (s : List Nat) (kw : Nat × Nat) :
    (sha256Round s kw).length = s.length := by
  unfold sha256Round
  split <;> simp

theorem sha256Rounds_length (l : List (Nat × Nat)) :
    ∀ s : List Nat, (l.foldl sha256Round s).length = s.length := by
  induction l with
  | nil => intro s; rfl
  | cons kw l ih => intro s; simp [List.foldl, ih, sha256Round_length]

theorem sha256Block_length (h block : List Nat) : (sha256Block h block).length = h.length := by
  simp [sha256Block, sha256Rounds_length]

theorem sha256Blocks_length (k : Nat) :
    ∀ h bs : List Nat, (sha256Blocks k h bs).length = h.length := by
  induction k with
  | zero => intro h bs; rfl
  | succ k ih => intro h bs; simp [sha256Blocks, ih, sha256Block_length]

theorem sha256_bytes (msg : List Nat) :
    (sha256 msg).length = 32 ∧ ∀ b ∈ sha256 msg, b < 256 := by
  unfold sha256
  refine ⟨?_, (wordsBytes_spec _).2⟩
  rw [(wordsBytes_spec _).1, sha256Blocks_length]
  rfl

theorem utf8Char_inj (c d : Char) (x y : List Nat) (h : utf8Char c ++ x = utf8Char d ++ y) :
    c = d ∧ x = y := by
  have key : c.toNat = d.toNat ∧ x = y := by
    unfold utf8Char at h
    simp only at h
    split_ifs at h <;>
      simp only [List.cons_append, List.nil_append, List.cons.injEq] at h <;>
      first
        | (exfalso; omega)
        | (refine ⟨?_, ?_⟩
           · omega
           · tauto)
  refine ⟨?_, key.2⟩
  rw [← Char.ofNat_toNat c, ← Char.ofNat_toNat d, key.1]

theorem utf8_inj (s : List Char) : ∀ t : List Char, utf8 s = utf8 t → s = t := by
  induction s with
  | nil =>
    intro t h
    cases t with
    | nil => rfl
    | cons d t =>
      exfalso
      have h2 := congrArg List.length h
      simp only [utf8, List.length_nil, List.length_append] at h2
      have : 0 < (utf8Char d).length := by
        unfold utf8Char
        simp only
        split_ifs <;> simp
      omega
  | cons c s ih =>
    intro t h
    cases t with
    | nil =>
      exfalso
      have h2 := congrArg List.length h
      simp only [utf8, List.length_nil, List.length_append] at h2
      have : 0 < (utf8Char c).length := by
        unfold utf8Char
        simp only
        split_ifs <;> simp
      omega
    | cons d t =>
      simp only [utf8] at h
      obtain ⟨h1, h2⟩ := utf8Char_inj c d _ _ h
      rw [h1, ih t h2]

theorem hexDigit_inj (a b : Nat) (ha : a < 16) (hb : b < 16) (h : hexDigit a = hexDigit b) :
    a = b := by
  rw [← hexVal_hexDigit a ha, ← hexVal_hexDigit b hb, h]

theorem hexBytes_inj (a : List Nat) :
    ∀ b : List Nat, (∀ x ∈ a, x < 256) → (∀ x ∈ b, x < 256) → hexBytes a = hexBytes b →
      a = b := by
  induction a with
  | nil =>
    intro b _ _ h
    cases b with
    | nil => rfl
    | cons y ys => simp [hexBytes] at h
  | cons x xs ih =>
    intro b ha hb h
    cases b with
    | nil => simp [hexBytes] at h
    | cons y ys =>
      simp only [hexBytes, List.cons.injEq] at h
      have hx : x < 256 := ha x (List.mem_cons_self _ _)
      have hy : y < 256 := hb y (List.mem_cons_self _ _)
      have h1 := hexDigit_inj (x / 16) (y / 16) (by omega) (by omega) h.1
      have h2 := hexDigit_inj (x % 16) (y % 16) (by omega) (by omega) h.2.1
      have hxy : x = y := by omega
      rw [hxy, ih ys (fun z hz => ha z (List.mem_cons_of_mem _ hz))
        (fun z hz => hb z (List.mem_cons_of_mem _ hz)) h.2.2]

theorem computeHash_eq_iff (n m : Node) :
    n.computeHash = m.computeHash ↔
      sha256 (utf8 (jsonMarshal n.DB.Store)) = sha256 (utf8 (jsonMarshal m.DB.Store)) := by
  constructor
  · intro h
    exact hexBytes_inj _ _ (sha256_bytes _).2 (sha256_bytes _).2 (congrArg String.data h)
  · intro h
    simp [Node.computeHash, h]

/-- The bytes that are hashed tell the store slices apart: equal bytes mean equal
slices, the bytes change when a record is appended, and two stores that hold
the same records in a different order are marshalled to different bytes. -/
theorem marshalled_bytes_one_to_one :
    (∀ s t : Slice Store, utf8 (jsonMarshal s) = utf8 (jsonMarshal t) → s = t) ∧
      (∀ (s : Slice Store) (r : Store),
        utf8 (jsonMarshal (s.append r)) ≠ utf8 (jsonMarshal s)) ∧
      ∀ s t : Slice Store, s.elems.Perm t.elems → s.elems ≠ t.elems →
        utf8 (jsonMarshal s) ≠ utf8 (jsonMarshal t) := by
  have hinj : ∀ s t : Slice Store, utf8 (jsonMarshal s) = utf8 (jsonMarshal t) → s = t :=
    fun s t h => jsonMarshal_inj s t (utf8_inj _ _ h)
  refine ⟨hinj, ?_, ?_⟩
  · intro s r h
    have h2 := congrArg Slice.elems (hinj _ _ h)
    have h3 := congrArg List.length h2
    simp [Slice.append, Slice.elems] at h3
  · intro s t _ hne h
    exact hne (congrArg Slice.elems (hinj s t h))

/-- Two nodes with the same digest hold the same store slice, or SHA-256
collides on the two different byte strings their stores are marshalled to. -/
theorem digest_eq_only_on_collision (n m : Node) (h : n.computeHash = m.computeHash) :
    n.DB.Store = m.DB.Store ∨
      (utf8 (jsonMarshal n.DB.Store) ≠ utf8 (jsonMarshal m.DB.Store) ∧
        sha256 (utf8 (jsonMarshal n.DB.Store)) = sha256 (utf8 (jsonMarshal m.DB.Store))) := by
  by_cases hs : n.DB.Store = m.DB.Store
  · exact Or.inl hs
  · exact Or.inr ⟨fun hb => hs (marshalled_bytes_one_to_one.1 _ _ hb),
      (computeHash_eq_iff n m).1 h⟩

set_option maxRecDepth 100000 in
/-- C7. The digest is not a function of the record sequence alone. The node
`NewNode` returns ("an empty store": a nil slice, hashed as `null`) and the same
node after `AcceptReplicateAll` of the empty array (an empty slice, hashed as
`[]`) hold the same records, none, and have different digests. So when the
first probes the second at an up-transition it finds the digests different and
pushes its store, although the two stores hold the same records. -/
theorem digest_differs_on_empty_stores :
    (NewNode exampleConfig).DB.Store.elems = [] ∧
      ((NewNode exampleConfig).AcceptReplicateAll
          { Method := "POST", Body := some (some []) }).1.DB.Store.elems = [] ∧
      (NewNode exampleConfig).computeHash =
        "74234e98afe7498fb5daf1f36ac2d78acc339464f950703b8c019892f982b90b" ∧
      ((NewNode exampleConfig).AcceptReplicateAll
          { Method := "POST", Body := some (some []) }).1.computeHash =
        "4f53cda18c2baa0c0354bb5f9a3ecbe5ed12ab4d8e11ba873c2f11161202b945" ∧
      (NewNode exampleConfig).computeHash ≠
        ((NewNode exampleConfig).AcceptReplicateAll
          { Method := "POST", Body := some (some []) }).1.computeHash ∧
      pushesTo "http://localhost:8001"
          (Node.pingPeer { node := NewNode exampleConfig, peerLoggedUp := [], allUp := true }
            "http://localhost:8001"
            { ping := .status 200
              hash := .hash ((NewNode exampleConfig).AcceptReplicateAll
                { Method := "POST", Body := some (some []) }).1.computeHash
              push := .status 200 }).2 =
        [Event.post "http://localhost:8001" "/replicateAll" "null"] := by
  have h1 : (NewNode exampleConfig).computeHash =
      "74234e98afe7498fb5daf1f36ac2d78acc339464f950703b8c019892f982b90b" := by decide
  have h2 : ((NewNode exampleConfig).AcceptReplicateAll
      { Method := "POST", Body := some (some []) }).1.computeHash =
      "4f53cda18c2baa0c0354bb5f9a3ecbe5ed12ab4d8e11ba873c2f11161202b945" := by decide
  have h3 : (NewNode exampleConfig).computeHash ≠
      ((NewNode exampleConfig).AcceptReplicateAll
        { Method := "POST", Body := some (some []) }).1.computeHash := by
    rw [h1, h2]
    decide
  refine ⟨rfl, rfl, h1, h2, h3, ?_⟩
  rw [pingPeer_push_on_mismatch
    { node := NewNode exampleConfig, peerLoggedUp := [], allUp := true }
    "http://localhost:8001"
    ((NewNode exampleConfig).AcceptReplicateAll
      { Method := "POST", Body := some (some []) }).1.computeHash (.status 200) rfl h3]
  rfl

/-! ### `PingPeers` as a run of cycles -/

theorem PingPeers_fold (cycles : List (Nat → PeerEnv)) :
    ∀ (n : Node) (v : PingVars) (acc : List (List Event)),
      cycles.foldl
          (fun (acc : Node × PingVars × List (List Event)) env =>
            ((Node.pingCycle acc.1 acc.2.1 env).1, (Node.pingCycle acc.1 acc.2.1 env).2.1,
              acc.2.2 ++ [(Node.pingCycle acc.1 acc.2.1 env).2.2]))
          (n, v, acc) =
        ((System.run { node := n, vars := v } (cycles.map Action.cycle)).1.node,
          (System.run { node := n, vars := v } (cycles.map Action.cycle)).1.vars,
          acc ++ (System.run { node := n, vars := v } (cycles.map Action.cycle)).2) := by
  induction cycles with
  | nil => intro n v acc; simp [System.run]
  | cons env rest ih =>
    intro n v acc
    simp only [List.foldl, List.map_cons, System.run, System.step]
    rw [ih]
    simp

theorem PingPeers_eq_run (n : Node) (cycles : List (Nat → PeerEnv)) :
    n.PingPeers cycles =
      ((System.run { node := n, vars := PingVars.init } (cycles.map Action.cycle)).1.node,
        (System.run { node := n, vars := PingVars.init } (cycles.map Action.cycle)).1.vars,
        (System.run { node := n, vars := PingVars.init } (cycles.map Action.cycle)).2) := by
  have := PingPeers_fold cycles n PingVars.init []
  simpa [Node.PingPeers] using this

/-! ### The "All peers are up" event -/

theorem pingPeer_allUp (st : Probe) (peer : String) (e : PeerEnv) :
    (Node.pingPeer st peer e).1.allUp = (st.allUp && (e.ping == CallResult.status 200)) ∧
      Event.logAllPeersUp ∉ (Node.pingPeer st peer e).2 := by
  rcases e with ⟨ping, hash, push⟩
  cases ping with
  | err => simp [Node.pingPeer]
  | status code =>
    by_cases hcode : code = 200
    · subst hcode
      cases hflag : st.peerLoggedUp.get peer
      · cases hash with
        | err => simp [Node.pingPeer, hflag, Node.getPeerStoreHash]
        | hash h =>
          by_cases hh : ({ st.node with PeerStates := st.node.PeerStates.set peer true } :
              Node).computeHash = h
          · simp [Node.pingPeer, hflag, Node.getPeerStoreHash, hh]
          · cases push with
            | err => simp [Node.pingPeer, hflag, Node.getPeerStoreHash, hh,
                Node.replicateStoreToPeer]
            | status c =>
              by_cases hc : c = 200 <;>
                simp [Node.pingPeer, hflag, Node.getPeerStoreHash, hh,
                  Node.replicateStoreToPeer, hc]
      · simp [Node.pingPeer, hflag]
    · simp [Node.pingPeer, hcode]

theorem pingLoop_allUp (env : Nat → PeerEnv) (peers : List String) :
    ∀ (i : Nat) (st : Probe),
      (Node.pingLoop env i peers st).1.allUp = (st.allUp && allOkFrom env i peers) ∧
        Event.logAllPeersUp ∉ (Node.pingLoop env i peers st).2 := by
  induction peers with
  | nil => intro i st; simp [Node.pingLoop, allOkFrom]
  | cons peer rest ih =>
    intro i st
    obtain ⟨h1, h2⟩ := ih (i + 1) (Node.pingPeer st peer (env i)).1
    obtain ⟨g1, g2⟩ := pingPeer_allUp st peer (env i)
    simp only [Node.pingLoop, allOkFrom, List.mem_append, not_or]
    rw [h1, g1, Bool.and_assoc]
    exact ⟨rfl, g2, h2⟩

theorem pingCycle_allUp (n : Node) (v : PingVars) (env : Nat → PeerEnv) :
    (n.pingCycle v env).2.1.alreadyLoggedAllUp = allOk n.Peers env ∧
      (Event.logAllPeersUp ∈ (n.pingCycle v env).2.2 ↔
        allOk n.Peers env = true ∧ v.alreadyLoggedAllUp = false) ∧
      (n.pingCycle v env).2.2.count Event.logAllPeersUp ≤ 1 := by
  obtain ⟨h1, h2⟩ := pingLoop_allUp env n.Peers 0
    { node := n, peerLoggedUp := v.peerLoggedUp, allUp := true }
  simp only [Bool.true_and] at h1
  have hc : (Node.pingLoop env 0 n.Peers
      { node := n, peerLoggedUp := v.peerLoggedUp, allUp := true }).2.count
      Event.logAllPeersUp = 0 := List.count_eq_zero.2 h2
  simp only [Node.pingCycle, allOk, h1, List.mem_append, List.count_append, hc]
  cases hall : allOkFrom env 0 n.Peers <;> cases hv : v.alreadyLoggedAllUp <;> simp [h2]

theorem step_allUp (s : System) (a : Action) :
    (s.step a).1.vars.alreadyLoggedAllUp =
      match cyclesOf [a] with
      | [] => s.vars.alreadyLoggedAllUp
      | env :: _ => allOk s.node.Peers env := by
  cases a with
  | cycle env => simpa [System.step, cyclesOf] using (pingCycle_allUp s.node s.vars env).1
  | storeKeyValue r env => rfl
  | replicateKeyValue r => rfl
  | acceptReplicateAll r => rfl
  | getValue r => rfl
  | storeHash r => rfl
  | pong r => rfl

theorem cyclesOf_cons (a : Action) (rest : List Action) :
    cyclesOf (a :: rest) = cyclesOf [a] ++ cyclesOf rest := by
  cases a <;> simp [cyclesOf]

theorem run_allUp (acts : List Action) :
    ∀ s : System,
      (s.run acts).1.node.Peers = s.node.Peers ∧
        (s.run acts).1.vars.alreadyLoggedAllUp =
          match (cyclesOf acts).getLast? with
          | none => s.vars.alreadyLoggedAllUp
          | some env => allOk s.node.Peers env := by
  induction acts with
  | nil => intro s; simp [System.run, cyclesOf]
  | cons a rest ih =>
    intro s
    obtain ⟨h1, h2⟩ := ih (s.step a).1
    have hp : (s.step a).1.node.Peers = s.node.Peers := (step_spec s a "").1
    rw [hp] at h1 h2
    refine ⟨h1, ?_⟩
    cases a with
    | cycle env =>
      have hs : (s.step (Action.cycle env)).1.vars.alreadyLoggedAllUp = allOk s.node.Peers env :=
        (pingCycle_allUp s.node s.vars env).1
      simp only [System.run, cyclesOf]
      rw [h2]
      cases hr : cyclesOf rest with
      | nil => simpa using hs
      | cons e es =>
        rw [List.getLast?_cons_cons]
        cases hl : (e :: es).getLast? with
        | none => simp at hl
        | some x => rfl
    | storeKeyValue r env => exact h2
    | replicateKeyValue r => exact h2
    | acceptReplicateAll r => exact h2
    | getValue r => exact h2
    | storeHash r => exact h2
    | pong r => exact h2

theorem cyclesOf_map (cycles : List (Nat → PeerEnv)) :
    cyclesOf (cycles.map Action.cycle) = cycles := by
  induction cycles with
  | nil => rfl
  | cons e es ih => simp [cyclesOf, ih]

theorem run_append (a b : List Action) :
    ∀ s : System,
      s.run (a ++ b) =
        ((System.run (s.run a).1 b).1, (s.run a).2 ++ (System.run (s.run a).1 b).2) := by
  induction a with
  | nil => intro s; simp [System.run]
  | cons x xs ih => intro s; simp [System.run, ih]

/-- C12. From the start of the probe loop, through any run of cycles and
requests: "All peers are up" is logged in a cycle exactly when every peer
answered that cycle's ping with 200 and the cycle is the first one or some peer
did not answer 200 in the cycle before it; it is logged at most once in a
cycle. So it is not logged again while the cycles stay all-OK, and a cycle with
a peer that is not OK arms it again. The same holds for `PingPeers` alone. -/
theorem allPeersUp_logged_once (n : Node) (pre : List Action) (env : Nat → PeerEnv) :
    (Event.logAllPeersUp ∈
          ((System.run { node := n, vars := PingVars.init } pre).1.step (Action.cycle env)).2 ↔
        allOk n.Peers env = true ∧ ∀ e ∈ (cyclesOf pre).getLast?, allOk n.Peers e = false) ∧
      ((System.run { node := n, vars := PingVars.init } pre).1.step
          (Action.cycle env)).2.count Event.logAllPeersUp ≤ 1 ∧
      ∀ (cycles : List (Nat → PeerEnv)) (evs : List Event),
        (n.PingPeers (cycles ++ [env])).2.2.getLast? = some evs →
          (Event.logAllPeersUp ∈ evs ↔
            allOk n.Peers env = true ∧ ∀ e ∈ cycles.getLast?, allOk n.Peers e = false) := by
  have key : ∀ pre : List Action,
      (Event.logAllPeersUp ∈
          ((System.run { node := n, vars := PingVars.init } pre).1.step (Action.cycle env)).2 ↔
        allOk n.Peers env = true ∧ ∀ e ∈ (cyclesOf pre).getLast?, allOk n.Peers e = false) := by
    intro pre
    obtain ⟨h1, h2⟩ := run_allUp pre { node := n, vars := PingVars.init }
    obtain ⟨_, g2, _⟩ := pingCycle_allUp
      (System.run { node := n, vars := PingVars.init } pre).1.node
      (System.run { node := n, vars := PingVars.init } pre).1.vars env
    simp only [System.step]
    rw [g2, h1, h2]
    cases hl : (cyclesOf pre).getLast? with
    | none => simp [PingVars.init]
    | some x => simp
  refine ⟨key pre, ?_, ?_⟩
  · exact (pingCycle_allUp _ _ env).2.2
  · intro cycles evs hevs
    have hk := key (cycles.map Action.cycle)
    rw [cyclesOf_map] at hk
    rw [PingPeers_eq_run, List.map_append, run_append] at hevs
    simp only [List.map_cons, List.map_nil, System.run, List.getLast?_append_of_ne_nil _
      (List.cons_ne_nil _ _), List.getLast?_singleton, Option.some.injEq] at hevs
    rw [← hevs]
    exact hk

/-! ### Anti-entropy convergence -/

/-- C11. Node X (the node of `st`) probes peer Y while Y's one-shot flag is
false, Y answers the ping with 200 and reports its digest, and the digests
differ. Then X posts its marshalled store to Y's `/replicateAll` once; Y, which
reads that body back, answers 200 and holds X's store afterwards, so the two
digests are equal; X's own store is unchanged, and X logs the push as done. -/
theorem anti_entropy_convergence (st : Probe) (peer : String) (Y : Node)
    (r : Request (Slice Store))
    (hflag : st.peerLoggedUp.get peer = false)
    (hdiff : st.node.computeHash ≠ Y.computeHash)
    (hdel : Delivered (String.mk (jsonMarshal st.node.DB.Store)) r) :
    pushesTo peer
        (Node.pingPeer st peer
          { ping := .status 200, hash := .hash Y.computeHash,
            push := .status (Y.AcceptReplicateAll r).2.Status }).2 =
        [Event.post peer "/replicateAll" (String.mk (jsonMarshal st.node.DB.Store))] ∧
      (Y.AcceptReplicateAll r).2.Status = 200 ∧
      (Y.AcceptReplicateAll r).1.DB.Store = st.node.DB.Store ∧
      (Y.AcceptReplicateAll r).1.computeHash =
        (Node.pingPeer st peer
          { ping := .status 200, hash := .hash Y.computeHash,
            push := .status (Y.AcceptReplicateAll r).2.Status }).1.node.computeHash ∧
      (Node.pingPeer st peer
          { ping := .status 200, hash := .hash Y.computeHash,
            push := .status (Y.AcceptReplicateAll r).2.Status }).1.node.DB = st.node.DB ∧
      Event.logReplicatedStore peer ∈
        (Node.pingPeer st peer
          { ping := .status 200, hash := .hash Y.computeHash,
            push := .status (Y.AcceptReplicateAll r).2.Status }).2 := by
  obtain ⟨hm, d, hb, hd⟩ := hdel
  have hds : d = st.node.DB.Store := jsonMarshal_inj _ _ (congrArg String.data hd)
  subst hds
  have hY : Y.AcceptReplicateAll r =
      ({ Y with DB := { Store := st.node.DB.Store } },
        { Status := 200,
          Body := "\x7b\"message\": \"All key-value pairs replicated successfully\"\x7d" }) := by
    simp [Node.AcceptReplicateAll, hm, hb]
  have hpush := pingPeer_push_on_mismatch st peer Y.computeHash
    (.status (Y.AcceptReplicateAll r).2.Status) hflag hdiff
  have hfr := pingPeer_frame st peer
    { ping := .status 200, hash := .hash Y.computeHash,
      push := .status (Y.AcceptReplicateAll r).2.Status }
  refine ⟨hpush, by rw [hY], by rw [hY], ?_, hfr.2.1, ?_⟩
  · exact computeHash_congr _ _ (by rw [hfr.2.1, hY])
  · have hc : ({ st.node with PeerStates := st.node.PeerStates.set peer true } :
        Node).computeHash = st.node.computeHash := computeHash_congr _ _ rfl
    rw [hY]
    simp [Node.pingPeer, hflag, hc, hdiff, Node.getPeerStoreHash, Node.replicateStoreToPeer]

set_option maxRecDepth 100000 in
theorem anti_entropy_convergence_witness :
    (GoMap.get [] "http://localhost:8001" = false ∧
        (nodeWith storeA).computeHash ≠ (NewNode exampleConfig).computeHash ∧
        Delivered (String.mk (jsonMarshal storeA)) { Method := "POST", Body := some storeA }) ∧
      ((NewNode exampleConfig).AcceptReplicateAll
          { Method := "POST", Body := some storeA }).1.DB.Store = storeA ∧
      ((NewNode exampleConfig).AcceptReplicateAll
          { Method := "POST", Body := some storeA }).1.computeHash =
        (nodeWith storeA).computeHash ∧
      pushesTo "http://localhost:8001"
          (Node.pingPeer { node := nodeWith storeA, peerLoggedUp := [], allUp := true }
            "http://localhost:8001"
            { ping := .status 200, hash := .hash (NewNode exampleConfig).computeHash,
              push := .status ((NewNode exampleConfig).AcceptReplicateAll
                { Method := "POST", Body := some storeA }).2.Status }).2 =
        [Event.post "http://localhost:8001" "/replicateAll"
          "[\x7b\"Key\":\"k1\",\"Value\":\"v1\"\x7d]"] :=
  have hflag : GoMap.get [] "http://localhost:8001" = false := rfl
  have hdiff : (nodeWith storeA).computeHash ≠ (NewNode exampleConfig).computeHash := by decide
  have hdel : Delivered (String.mk (jsonMarshal storeA))
      { Method := "POST", Body := some storeA } := ⟨rfl, storeA, rfl, rfl⟩
  have h := anti_entropy_convergence
    { node := nodeWith storeA, peerLoggedUp := [], allUp := true }
    "http://localhost:8001" (NewNode exampleConfig)
    { Method := "POST", Body := some storeA } hflag hdiff hdel
  ⟨⟨hflag, hdiff, hdel⟩, h.2.2.1, h.2.2.2.1, h.1.trans (by decide)⟩

end KVStore
